import Mathlib

/-!
Verification of the PackTrack report core (CSV codec, date helpers, and the
aggregation engine) against its natural-language specification.

The TypeScript source is shallowly embedded: JS strings become `String`,
JS numbers become `ℚ` (the code only performs exact +, /, and comparisons on
values produced by `parseFloat`; IEEE rounding is outside the model), JS
objects used as string-keyed dictionaries become insertion-ordered
association lists (`List (String × _)`), and code that can throw returns
`Option`.  `Array.prototype.sort` with a value comparator is modelled by a
stable insertion sort, which is the unique result ES2019-stable sorting can
produce for a comparator that is a total preorder on the key.
-/

/-! ## JS string primitives -/

/-- Whitespace recognised by JS `String.prototype.trim` (the common subset:
space, tab, LF, CR, VT, FF, NBSP, BOM; other exotic Unicode space separators
are omitted — no claim is sensitive to them). -/
def isJSWhite (c : Char) : Bool :=
  c = ' ' || c = '\t' || c = '\n' || c = '\r' || c.toNat = 11 || c.toNat = 12 ||
    c.toNat = 160 || c.toNat = 65279

/-- Model of JS `s.trim()`. -/
def jsTrim (s : String) : String :=
  String.mk (((s.data.dropWhile isJSWhite).reverse.dropWhile isJSWhite).reverse)

/-- Character-level worker for JS `s.split(sep)` with a one-character
separator: split at every occurrence, keeping empty pieces. -/
def splitChAux (c : Char) : List Char → List Char → List (List Char)
  | [], cur => [cur]
  | x :: xs, cur =>
    if x = c then cur :: splitChAux c xs [] else splitChAux c xs (cur ++ [x])

/-- Model of JS `s.split(sep)` for a one-character separator. -/
def jsSplit (c : Char) (s : String) : List String :=
  (splitChAux c s.data []).map String.mk

/-- Interleave a separator character between pieces (inverse of `jsSplit`). -/
def joinSep (c : Char) : List (List Char) → List Char
  | [] => []
  | [x] => x
  | x :: y :: t => x ++ c :: joinSep c (y :: t)

/-- Model of JS `s.replace(/"/g, '')`: drop every double-quote character. -/
def stripQuotes (s : String) : String :=
  String.mk (s.data.filter (fun c => c != '"'))

/-- Model of JS `s.padStart(2, '0')`. -/
def padStart2 (s : String) : String :=
  if s.length < 2 then String.mk (List.replicate (2 - s.length) '0' ++ s.data) else s

/-- Every character of `s` is an ASCII digit (the JS regex class `\d`). -/
def isDigits (s : String) : Bool :=
  s.data.all Char.isDigit

/-- Substring occurrence test on character lists. -/
def listHasSub (needle : List Char) : List Char → Bool
  | [] => needle.isEmpty
  | c :: rest => needle.isPrefixOf (c :: rest) || listHasSub needle rest

/-- Model of JS `hay.includes(needle)`. -/
def strHasSub (hay needle : String) : Bool :=
  listHasSub needle.data hay.data

/-- Numeric value of a list of ASCII digit characters. -/
def digitsVal (l : List Char) : Nat :=
  l.foldl (fun n c => n * 10 + (c.toNat - 48)) 0

/-- Model of JS `parseFloat`: skip leading whitespace, optional sign, then the
longest decimal-literal prefix (integer part, optional fraction, optional
exponent); `none` models `NaN`.  The `Infinity` literals fall outside the ℚ
model and are mapped to `none`; no claim depends on them. -/
def jsParseFloat (s : String) : Option ℚ :=
  let cs := s.data.dropWhile isJSWhite
  let sgncs : ℚ × List Char :=
    match cs with
    | '-' :: r => (-1, r)
    | '+' :: r => (1, r)
    | _ => (1, cs)
  let ip := sgncs.2.takeWhile Char.isDigit
  let rest1 := sgncs.2.dropWhile Char.isDigit
  let fprest : List Char × List Char :=
    match rest1 with
    | '.' :: r => (r.takeWhile Char.isDigit, r.dropWhile Char.isDigit)
    | _ => ([], rest1)
  if ip.isEmpty && fprest.1.isEmpty then none
  else
    let mant : ℚ := sgncs.1 * ((digitsVal (ip ++ fprest.1) : ℚ) / ((10 : ℚ) ^ fprest.1.length))
    match fprest.2 with
    | e :: r =>
      if e = 'e' || e = 'E' then
        let esgn : Bool × List Char :=
          match r with
          | '-' :: rr => (true, rr)
          | '+' :: rr => (false, rr)
          | _ => (false, r)
        let ed := esgn.2.takeWhile Char.isDigit
        if ed.isEmpty then some mant
        else if esgn.1 then some (mant / (10 : ℚ) ^ digitsVal ed)
        else some (mant * (10 : ℚ) ^ digitsVal ed)
      else some mant
    | [] => some mant

/-- Split `hay` around the first occurrence of `needle`, if any. -/
def splitFirstSub (needle : List Char) : List Char → Option (List Char × List Char)
  | [] => if needle.isEmpty then some ([], []) else none
  | c :: rest =>
    if needle.isPrefixOf (c :: rest) then some ([], (c :: rest).drop needle.length)
    else
      match splitFirstSub needle rest with
      | some pp => some (c :: pp.1, pp.2)
      | none => none

/-- Model of JS `s.replace(needle, repl)` with a plain-string pattern:
replaces only the first occurrence. -/
def jsReplaceFirst (s needle repl : String) : String :=
  match splitFirstSub needle.data s.data with
  | some pp => String.mk (pp.1 ++ repl.data ++ pp.2)
  | none => s

/-- JS array indexing inside a template literal: a missing element prints as
the string "undefined". -/
def getJS (l : List String) (i : Nat) : String :=
  (l.get? i).getD "undefined"

/-! ## Package catalog (src/types.ts) -/

/-- The ordered catalog of package-dimension column names (`PACKAGE_COLUMNS`
in src/types.ts). -/
def PACKAGE_COLUMNS : List String :=
  ["110x110x115 QTY", "110x110x90 QTY", "110x110x65 QTY", "80X120X115 QTY",
   "80X120X90 QTY", "80X120X65 QTY", "RETURNABLE QTY", "42X46X68 QTY",
   "47X66X68 QTY", "53X53X58 QTY", "57X64X84 QTY", "68X74X86 QTY",
   "70X100X90 QTY", "27X27X22 QTY", "53X53X19 QTY", "WARP QTY", "UNIT QTY"]

/-- The grouping of catalog keys (`PACKAGE_GROUPS` in src/types.ts), as an
insertion-ordered association list mirroring the JS object literal. -/
def PACKAGE_GROUPS : List (String × List String) :=
  [("Standard Package",
    ["110x110x115 QTY", "110x110x90 QTY", "110x110x65 QTY", "80X120X115 QTY",
     "80X120X90 QTY", "80X120X65 QTY"]),
   ("Returnable Package", ["RETURNABLE QTY"]),
   ("Boxes Package",
    ["42X46X68 QTY", "47X66X68 QTY", "53X53X58 QTY", "57X64X84 QTY",
     "68X74X86 QTY", "70X100X90 QTY", "27X27X22 QTY", "53X53X19 QTY"]),
   ("Warp Package", ["WARP QTY", "UNIT QTY"])]

/-- The per-key capacity ratios (`PACKAGE_RATIOS` in src/types.ts). -/
def PACKAGE_RATIOS : List (String × ℚ) :=
  [("110x110x115 QTY", 1), ("110x110x90 QTY", 1), ("110x110x65 QTY", 1),
   ("80X120X115 QTY", 1), ("80X120X90 QTY", 1), ("80X120X65 QTY", 1),
   ("RETURNABLE QTY", 2), ("42X46X68 QTY", 3), ("47X66X68 QTY", 3),
   ("53X53X58 QTY", 3), ("57X64X84 QTY", 3), ("68X74X86 QTY", 3),
   ("70X100X90 QTY", 3), ("27X27X22 QTY", 30), ("53X53X19 QTY", 30),
   ("WARP QTY", 10), ("UNIT QTY", 1)]

/-- First-match association-list lookup (JS `obj[key]` read on our
insertion-ordered dictionary model). -/
def alook : List (String × α) → String → Option α
  | [], _ => none
  | kv :: rest, key => if kv.1 = key then some kv.2 else alook rest key

/-! ## Date display helpers (src/utils.ts lines 4–18) -/

/-- Model of `formatDisplayDate`: convert ISO `YYYY-MM-DD` to `DD/MM/YYYY`
by array destructuring of `split('-')`. -/
def formatDisplayDate (isoDate : String) : String :=
  if isoDate = "" then ""
  else
    let parts := jsSplit '-' isoDate
    getJS parts 2 ++ "/" ++ getJS parts 1 ++ "/" ++ getJS parts 0

/-- Model of `parseDisplayDate`: convert `DD/MM/YYYY` to `YYYY-MM-DD`;
anything that does not split into exactly three `/`-parts is returned as-is. -/
def parseDisplayDate (displayDate : String) : String :=
  if displayDate = "" then ""
  else
    let parts := jsSplit '/' displayDate
    if parts.length = 3 then getJS parts 2 ++ "-" ++ getJS parts 1 ++ "-" ++ getJS parts 0
    else displayDate

/-- A string of the exact shape `YYYY-MM-DD` (4, 2, 2 ASCII digits). -/
def isValidISO (s : String) : Bool :=
  match jsSplit '-' s with
  | [y, m, d] => isDigits y && y.length = 4 && isDigits m && m.length = 2 &&
      isDigits d && d.length = 2
  | _ => false

/-- A string of the exact shape `DD/MM/YYYY` (2, 2, 4 ASCII digits). -/
def isValidDisplay (s : String) : Bool :=
  match jsSplit '/' s with
  | [d, m, y] => isDigits d && d.length = 2 && isDigits m && m.length = 2 &&
      isDigits y && y.length = 4
  | _ => false

/-! ## CSV codec (src/utils.ts lines 21–71) -/

/-- A decoded CSV field value: JS puts either a string or a number in the
record, depending on the header. -/
inductive FieldVal where
  | str (s : String)
  | num (q : ℚ)
deriving DecidableEq, Repr

/-- One decoded CSV row: the synthesized `id` plus one `(header, value)` pair
per header, in header order.  (For duplicate header names JS would keep only
the last assignment; the claims under verification do not involve duplicate
headers.) -/
structure CSVRecord where
  id : String
  fields : List (String × FieldVal)
deriving DecidableEq, Repr

/-- The quote-aware comma tokenizer loop of `parseCSV`: a `"` toggles
`inQuotes` (and is never copied), a `,` outside quotes ends the current field,
anything else is appended; each finished field is trimmed. -/
def tokAux : List Char → Bool → List Char → List String
  | [], _, cur => [jsTrim (String.mk cur)]
  | c :: cs, inQ, cur =>
    if c = '"' then tokAux cs (!inQ) cur
    else if c = ',' && !inQ then jsTrim (String.mk cur) :: tokAux cs false []
    else tokAux cs inQ (cur ++ [c])

/-- Tokenize one data line of the CSV (the `values` array of `parseCSV`). -/
def tokenize (line : String) : List String :=
  tokAux line.data false []

/-- Model of the anchored JS regex match
`val.match(/^(\d{1,2})\/(\d{1,2})\/(\d{4})$/)`, returning the three capture
groups.  Since `\d` cannot match `/`, a full match is exactly a split into
three slash-free all-digit parts of lengths 1–2, 1–2 and 4. -/
def dateMatch (v : String) : Option (String × String × String) :=
  match jsSplit '/' v with
  | [d, m, y] =>
    if isDigits d && 1 ≤ d.length && d.length ≤ 2 && isDigits m && 1 ≤ m.length &&
        m.length ≤ 2 && isDigits y && y.length = 4 then
      some (d, m, y)
    else none
  | _ => none

/-- Headers whose fields `parseCSV` coerces to numbers:
`header.includes("QTY") || header === "SI QTY" || PACKAGE_COLUMNS.includes(header)`. -/
def isNumericHeader (header : String) : Bool :=
  strHasSub header "QTY" || header = "SI QTY" || decide (header ∈ PACKAGE_COLUMNS)

/-- Per-field coercion of `parseCSV`.  `val` is the positional token after the
quote-strip (`values[i]?.replace(/"/g, '')`); `none` models `undefined` for a
header beyond the line's field count.  Note `parseFloat(undefined)` is `NaN`,
and `undefined || ""` is `""`. -/
def coerceField (header : String) (val : Option String) : FieldVal :=
  if header = "Date" then
    match val with
    | some v =>
      match dateMatch v with
      | some dmy => .str (dmy.2.2 ++ "-" ++ padStart2 dmy.2.1 ++ "-" ++ padStart2 dmy.1)
      | none => .str v
    | none => .str ""
  else if isNumericHeader header then
    match val with
    | some v => .num ((jsParseFloat v).getD 0)
    | none => .num 0
  else .str (val.getD "")

/-- `List.map` with the element's position, mirroring the index argument of
JS `Array.prototype.map`. -/
def mapIdxFrom (f : Nat → α → β) : Nat → List α → List β
  | _, [] => []
  | n, x :: xs => f n x :: mapIdxFrom f (n + 1) xs

/-- The non-empty (after trimming) lines of the input, in order — the `lines`
array of `parseCSV`. -/
def csvLines (text : String) : List String :=
  (jsSplit '\n' text).filter (fun l => jsTrim l != "")

/-- Build one decoded record from the header list and one data line. -/
def mkCSVRecord (headers : List String) (index : Nat) (line : String) : CSVRecord :=
  let values := tokenize line
  { id := "row-" ++ toString index
    fields := mapIdxFrom (fun i h => (h, coerceField h ((values.get? i).map stripQuotes))) 0 headers }

/-- Model of `parseCSV`.  When the input has no non-empty line, the JS code
evaluates `lines[0].split(',')` on `undefined` and throws a TypeError; this is
modelled as `none`. -/
def parseCSV (text : String) : Option (List CSVRecord) :=
  match csvLines text with
  | [] => none
  | l0 :: rest =>
    let headers := (jsSplit ',' l0).map (fun h => stripQuotes (jsTrim h))
    some (mapIdxFrom (fun index line => mkCSVRecord headers index line) 0 rest)

/-! ## Aggregation engine (src/utils.ts lines 110–203) -/

/-- A well-typed `PackingRecord` as consumed by `aggregateData`: the named
base fields plus the dynamic package-count columns, modelled as a total
function with default 0 (`(row[col] as number) || 0` treats a missing column
as 0). -/
structure PackingRecord where
  id : String := ""
  Date : String := ""
  Shipment : String := ""
  Mode : String := ""
  Product : String := ""
  SI_QTY : ℚ := 0
  QTY : ℚ := 0
  pkg : String → ℚ := fun _ => 0

/-- One point of the daily timeline series. -/
structure TimePoint where
  date : String
  qty : ℚ
  packages : ℚ
deriving DecidableEq, Repr

/-- One point of a chart series (`{ name, value }`). -/
structure ChartPoint where
  name : String
  value : ℚ
deriving DecidableEq, Repr

/-- The `stats` object of `aggregateData`. -/
structure Stats where
  totalItems : ℚ
  totalSI : ℚ
  totalPackages : ℚ
  topCustomer : String
  topMode : String
deriving DecidableEq, Repr

/-- One `ratioStats` entry (`{ used, maxCapacity }`). -/
structure RatioEntry where
  used : ℚ
  maxCapacity : ℚ
deriving DecidableEq, Repr

instance : Add RatioEntry :=
  ⟨fun a b => ⟨a.used + b.used, a.maxCapacity + b.maxCapacity⟩⟩

theorem RatioEntry.add_def (a b : RatioEntry) :
    a + b = ⟨a.used + b.used, a.maxCapacity + b.maxCapacity⟩ := rfl

instance : Zero RatioEntry :=
  ⟨⟨0, 0⟩⟩

theorem RatioEntry.zero_def : (0 : RatioEntry) = ⟨0, 0⟩ := rfl

instance (priority := low) : AddCommMonoid RatioEntry where
  add := (· + ·)
  zero := 0
  add_assoc a b c := by simp [RatioEntry.add_def, add_assoc]
  zero_add a := by cases a; simp [RatioEntry.add_def, RatioEntry.zero_def]
  add_zero a := by cases a; simp [RatioEntry.add_def, RatioEntry.zero_def]
  add_comm a b := by simp [RatioEntry.add_def, add_comm]
  nsmul := nsmulRec
  nsmul_zero a := rfl
  nsmul_succ n a := rfl

/-- The full result object of `aggregateData`. -/
structure AggResult where
  stats : Stats
  timelineData : List TimePoint
  packageData : List ChartPoint
  shipmentChartData : List ChartPoint
  modeChartData : List ChartPoint
  groupStats : List (String × ℚ)
  ratioStats : List (String × RatioEntry)

/-- JS `m[k] = (m[k] || 0) + v` on an object used as a dictionary: add at the
existing position of `k`, or append a fresh key at the end (JS objects keep
string keys in insertion order). -/
def bumpAdd [Add α] : List (String × α) → String → α → List (String × α)
  | [], k, v => [(k, v)]
  | kv :: rest, k, v =>
    if kv.1 = k then (kv.1, kv.2 + v) :: rest else kv :: bumpAdd rest k v

/-- The per-row update of `dateMap`: create `{date: d, qty: 0, packages: 0}`
if absent, then `+= q` and `+= p`. -/
def bumpDate : List (String × TimePoint) → String → ℚ → ℚ → List (String × TimePoint)
  | [], d, q, p => [(d, ⟨d, q, p⟩)]
  | kv :: rest, d, q, p =>
    if kv.1 = d then (kv.1, ⟨kv.2.date, kv.2.qty + q, kv.2.packages + p⟩) :: rest
    else kv :: bumpDate rest d q p

/-- Stable insertion of `x` (an earlier element) into an already-sorted list of
later elements, descending by `key`; on ties the earlier element stays first,
as ES2019 `Array.prototype.sort` guarantees for the comparator
`(a, b) => key(b) - key(a)`. -/
def insertDescBy (key : α → ℚ) (x : α) : List α → List α
  | [] => [x]
  | y :: ys => if key y ≤ key x then x :: y :: ys else y :: insertDescBy key x ys

/-- Stable sort, descending by `key` (model of `.sort((a, b) => b.key - a.key)`). -/
def sortByDesc (key : α → ℚ) : List α → List α
  | [] => []
  | x :: xs => insertDescBy key x (sortByDesc key xs)

/-- Order key of `new Date(dateString).getTime()` up to a monotone
reparametrization: valid `YYYY-MM-DD` strings (month 1–12, day 1–31) map to a
lexicographic code, anything else to `none` (modelling `NaN`). -/
def dateKey (s : String) : Option ℤ :=
  match jsSplit '-' s with
  | [y, m, d] =>
    if isDigits y && y.length = 4 && isDigits m && m.length = 2 && isDigits d &&
        d.length = 2 && 1 ≤ digitsVal m.data && digitsVal m.data ≤ 12 &&
        1 ≤ digitsVal d.data && digitsVal d.data ≤ 31 then
      some ((digitsVal y.data : ℤ) * 512 + (digitsVal m.data : ℤ) * 32 + digitsVal d.data)
    else none
  | _ => none

/-- Comparator step for the timeline sort: the earlier element `x` moves past
`y` only when `y`'s date is strictly earlier; a `NaN` key compares as 0 (tie),
per the ES `SortCompare` rule. -/
def tlAfter (x y : TimePoint) : Bool :=
  match dateKey x.date, dateKey y.date with
  | some kx, some ky => decide (ky < kx)
  | _, _ => false

/-- Stable insertion for the ascending timeline sort. -/
def insertAscTL (x : TimePoint) : List TimePoint → List TimePoint
  | [] => [x]
  | y :: ys => if tlAfter x y then y :: insertAscTL x ys else x :: y :: ys

/-- Stable ascending sort of the timeline (model of
`.sort((a, b) => new Date(a.date).getTime() - new Date(b.date).getTime())`). -/
def sortAscTL : List TimePoint → List TimePoint
  | [] => []
  | x :: xs => insertAscTL x (sortAscTL xs)

/-- A string that is a canonical array index in the ECMAScript sense: a
canonical numeric string (ASCII digits only, no leading zero except "0"
itself) whose numeric value is below 2^32 - 1.  JS objects enumerate such
keys before all other string keys, in ascending numeric order. -/
def isArrayIndex (s : String) : Bool :=
  isDigits s && s.length != 0 && (s = "0" || s.data.head? != some '0') &&
    digitsVal s.data < 4294967295

/-- Ascending insertion by numeric key value, for the array-index keys of an
object (distinct canonical keys have distinct values, so ties cannot occur). -/
def insertAscIdx (x : String × α) : List (String × α) → List (String × α)
  | [] => [x]
  | y :: ys =>
    if digitsVal x.1.data ≤ digitsVal y.1.data then x :: y :: ys
    else y :: insertAscIdx x ys

/-- Sort the array-index entries of an object in ascending numeric key
order. -/
def sortAscIdx : List (String × α) → List (String × α)
  | [] => []
  | x :: xs => insertAscIdx x (sortAscIdx xs)

/-- Model of the ECMAScript own-property enumeration order used by
`Object.entries` / `Object.keys` / `Object.values` on our insertion-ordered
dictionary model: entries whose key is a canonical array index come first, in
ascending numeric order, followed by the remaining entries in insertion
(creation) order. -/
def jsEntries (m : List (String × α)) : List (String × α) :=
  sortAscIdx (m.filter (fun kv => isArrayIndex kv.1)) ++
    m.filter (fun kv => !isArrayIndex kv.1)

/-- The accumulator of the chart-aggregation `forEach` loop: the four
dictionaries it mutates. -/
structure ChartAcc where
  ship : List (String × ℚ)
  mode : List (String × ℚ)
  pkgUse : List (String × ℚ)
  dateMap : List (String × TimePoint)

/-- Sum of a row's counts over all catalog columns (the `dailyPackages`
local). -/
def dailyPackages (row : PackingRecord) : ℚ :=
  PACKAGE_COLUMNS.foldl (fun a c => a + row.pkg c) 0

/-- One iteration of the chart-aggregation loop over `data`. -/
def chartStep (acc : ChartAcc) (row : PackingRecord) : ChartAcc :=
  { ship := bumpAdd acc.ship row.Shipment row.QTY
    mode := bumpAdd acc.mode row.Mode 1
    pkgUse := PACKAGE_COLUMNS.foldl (fun m c => bumpAdd m c (row.pkg c)) acc.pkgUse
    dateMap := bumpDate acc.dateMap row.Date row.QTY (dailyPackages row) }

/-- Initial chart accumulator: `packageUsage` is pre-seeded with every catalog
column at 0; the other dictionaries start empty. -/
def chartInit : ChartAcc :=
  ⟨[], [], PACKAGE_COLUMNS.map (fun c => (c, 0)), []⟩

/-- JS `PACKAGE_RATIOS[col] || 1`: a missing ratio, or the falsy ratio 0,
becomes 1. -/
def jsOrOne (o : Option ℚ) : ℚ :=
  match o with
  | none => 1
  | some x => if x = 0 then 1 else x

/-- The per-(row, column) contribution to `ratioStats[group].maxCapacity`:
`ratio > 0 ? qty / ratio : 0`. -/
def capTerm (row : PackingRecord) (c : String) : ℚ :=
  let rt := jsOrOne (alook PACKAGE_RATIOS c)
  if 0 < rt then row.pkg c / rt else 0

/-- One iteration of the group/ratio aggregation loop over `data`: for every
group and every column of the group, add the row's count to `groupStats` and
the `(used, maxCapacity)` pair to `ratioStats`.  The source iterates
`Object.entries(PACKAGE_GROUPS)`; since no group name is an array index,
enumeration order is the literal's insertion order (`jsEntries_groups`), so
the list is used directly. -/
def groupStep (acc : List (String × ℚ) × List (String × RatioEntry))
    (row : PackingRecord) : List (String × ℚ) × List (String × RatioEntry) :=
  PACKAGE_GROUPS.foldl
    (fun acc gc =>
      gc.2.foldl
        (fun acc c =>
          (bumpAdd acc.1 gc.1 (row.pkg c),
           bumpAdd acc.2 gc.1 ⟨row.pkg c, capTerm row c⟩))
        acc)
    acc

/-- Initial `groupStats` and `ratioStats`: every group pre-seeded at 0. -/
def groupInit : List (String × ℚ) × List (String × RatioEntry) :=
  (PACKAGE_GROUPS.map (fun gc => (gc.1, 0)),
   PACKAGE_GROUPS.map (fun gc => (gc.1, ⟨0, 0⟩)))

/-- Turn the head of the descending-sorted dictionary entries into the
`topCustomer`/`topMode` string: `sorted[0]?.[0] || "N/A"` — both a missing
head and a falsy (empty) name give "N/A".  The argument is the entry list as
produced by `Object.entries`, i.e. already in enumeration order. -/
def topName (entries : List (String × ℚ)) : String :=
  match (sortByDesc (fun e => e.2) entries).head? with
  | none => "N/A"
  | some e => if e.1 = "" then "N/A" else e.1

/-- Model of `aggregateData` (src/utils.ts lines 110–203).  Every
`Object.entries` / `Object.values` read of a dictionary built at runtime goes
through `jsEntries` (array-index keys first, ascending).  The group loop
iterates `Object.entries(PACKAGE_GROUPS)`, whose enumeration order equals the
literal's insertion order because no group name is an array index (theorem
`jsEntries_groups`), so `groupStep`/`groupInit` use the list directly. -/
def aggregateData (data : List PackingRecord) : AggResult :=
  let totalItems := data.foldl (fun a r => a + r.QTY) 0
  let totalSI := data.foldl (fun a r => a + r.SI_QTY) 0
  let totalPackages :=
    data.foldl
      (fun a r =>
        PACKAGE_COLUMNS.foldl (fun a c => if r.pkg c = 0 then a else a + r.pkg c) a)
      0
  let charts := data.foldl chartStep chartInit
  let gp := data.foldl groupStep groupInit
  let timelineData := sortAscTL ((jsEntries charts.dateMap).map (fun kv => kv.2))
  let packageData :=
    sortByDesc (fun p => p.value)
      ((((jsEntries charts.pkgUse).map
        (fun e => ChartPoint.mk (jsReplaceFirst e.1 " QTY" "") e.2))).filter
        (fun p => decide (0 < p.value)))
  let shipmentChartData :=
    (sortByDesc (fun p => p.value)
      ((jsEntries charts.ship).map (fun e => ChartPoint.mk e.1 e.2))).take 5
  let modeChartData := (jsEntries charts.mode).map (fun e => ChartPoint.mk e.1 e.2)
  { stats :=
      { totalItems := totalItems
        totalSI := totalSI
        totalPackages := totalPackages
        topCustomer := topName (jsEntries charts.ship)
        topMode := topName (jsEntries charts.mode) }
    timelineData := timelineData
    packageData := packageData
    shipmentChartData := shipmentChartData
    modeChartData := modeChartData
    groupStats := gp.1
    ratioStats := gp.2 }

/-! ## Lemmas about the string primitives -/

theorem str_ext {a b : String} (h : a.data = b.data) : a = b := by
  cases a
  cases b
  simp only [String.data] at h
  subst h
  rfl

theorem splitChAux_ne_nil (c : Char) (l acc : List Char) : splitChAux c l acc ≠ [] := by
  induction l generalizing acc with
  | nil => simp [splitChAux]
  | cons x xs ih =>
    simp only [splitChAux]
    split
    · simp
    · exact ih _

theorem splitChAux_no_sep {c : Char} {l : List Char} (h : c ∉ l) (acc : List Char) :
    splitChAux c l acc = [acc ++ l] := by
  induction l generalizing acc with
  | nil => simp [splitChAux]
  | cons x xs ih =>
    have hx : x ≠ c := fun hxc => h (hxc ▸ List.mem_cons_self x xs)
    have hxs : c ∉ xs := fun hm => h (List.mem_cons_of_mem x hm)
    simp [splitChAux, hx, ih hxs]

theorem splitChAux_sep (c : Char) {l₁ : List Char} (h : c ∉ l₁) (l₂ acc : List Char) :
    splitChAux c (l₁ ++ c :: l₂) acc = (acc ++ l₁) :: splitChAux c l₂ [] := by
  induction l₁ generalizing acc with
  | nil => simp [splitChAux]
  | cons x xs ih =>
    have hx : x ≠ c := fun hxc => h (hxc ▸ List.mem_cons_self x xs)
    have hxs : c ∉ xs := fun hm => h (List.mem_cons_of_mem x hm)
    simp [splitChAux, hx, ih hxs]

theorem joinSep_splitChAux (c : Char) (l acc : List Char) :
    joinSep c (splitChAux c l acc) = acc ++ l := by
  induction l generalizing acc with
  | nil => simp [splitChAux, joinSep]
  | cons x xs ih =>
    by_cases hx : x = c
    · subst hx
      rcases hrest : splitChAux x xs [] with _ | ⟨y, ys⟩
      · exact absurd hrest (splitChAux_ne_nil x xs [])
      · have hj := ih ([] : List Char)
        rw [hrest] at hj
        simp [splitChAux, hrest, joinSep, hj]
    · simp [splitChAux, hx, ih (acc ++ [x])]

theorem jsSplit_three {c : Char} {s a b d : String} (h : jsSplit c s = [a, b, d]) :
    s.data = a.data ++ c :: (b.data ++ c :: d.data) := by
  unfold jsSplit at h
  rcases hL : splitChAux c s.data [] with _ | ⟨x, _ | ⟨y, _ | ⟨z, _ | ⟨w, t⟩⟩⟩⟩ <;>
    rw [hL] at h <;> simp at h
  obtain ⟨hx, hy, hz⟩ := h
  have hj := joinSep_splitChAux c s.data []
  rw [hL] at hj
  have hxd : x = a.data := by rw [← hx]
  have hyd : y = b.data := by rw [← hy]
  have hzd : z = d.data := by rw [← hz]
  subst hxd hyd hzd
  simpa [joinSep] using hj.symm

theorem jsSplit_parts {c : Char} {a b d : String} (ha : c ∉ a.data) (hb : c ∉ b.data)
    (hd : c ∉ d.data) (s : String) (hs : s.data = a.data ++ c :: (b.data ++ c :: d.data)) :
    jsSplit c s = [a, b, d] := by
  unfold jsSplit
  rw [hs, splitChAux_sep c ha, splitChAux_sep c hb, splitChAux_no_sep hd]
  simp

theorem mem_of_mem_jsTrim {x : Char} {s : String} (h : x ∈ (jsTrim s).data) : x ∈ s.data := by
  simp only [jsTrim] at h
  have h1 := (List.dropWhile_sublist (l := (s.data.dropWhile isJSWhite).reverse)
    (p := isJSWhite)).mem (List.mem_reverse.mp h)
  exact (List.dropWhile_sublist (p := isJSWhite)).mem (List.mem_reverse.mp h1)

theorem not_mem_of_isDigits {s : String} (h : isDigits s = true) {c : Char}
    (hc : c.isDigit = false) : c ∉ s.data := by
  intro hm
  unfold isDigits at h
  have := List.all_eq_true.mp h c hm
  rw [hc] at this
  exact absurd this (by simp)

theorem sdata_slash : ("/" : String).data = ['/'] := rfl

theorem sdata_dash : ("-" : String).data = ['-'] := rfl

/-- Claim C8 — For every valid ISO date string of the form YYYY-MM-DD,
converting to display form with formatDisplayDate (DD/MM/YYYY) and back with
parseDisplayDate returns the original ISO string, and the reverse composition
is also the identity on valid DD/MM/YYYY strings: the conversion is lossless
and round-trip exact. -/
theorem claim_C8 :
    (∀ s, isValidISO s = true → parseDisplayDate (formatDisplayDate s) = s) ∧
    (∀ t, isValidDisplay t = true → formatDisplayDate (parseDisplayDate t) = t) := by
  constructor
  · intro s hv
    unfold isValidISO at hv
    split at hv
    next y m d heq =>
      simp only [Bool.and_eq_true, decide_eq_true_eq] at hv
      obtain ⟨⟨⟨⟨⟨hy, hly⟩, hm⟩, hlm⟩, hd⟩, hld⟩ := hv
      have hne : s ≠ "" := by
        intro h0
        rw [h0] at heq
        rw [show jsSplit '-' "" = [""] from rfl] at heq
        simp at heq
      have hfmt : formatDisplayDate s = d ++ "/" ++ m ++ "/" ++ y := by
        unfold formatDisplayDate
        rw [if_neg hne, heq]
        rfl
      rw [hfmt]
      have hsd : '/' ∉ d.data := not_mem_of_isDigits hd (by decide)
      have hsm : '/' ∉ m.data := not_mem_of_isDigits hm (by decide)
      have hsy : '/' ∉ y.data := not_mem_of_isDigits hy (by decide)
      have hsplit : jsSplit '/' (d ++ "/" ++ m ++ "/" ++ y) = [d, m, y] :=
        jsSplit_parts hsd hsm hsy _
          (by simp [String.data_append, sdata_slash, List.append_assoc])
      have hne2 : (d ++ "/" ++ m ++ "/" ++ y) ≠ "" := by
        intro h0
        have h1 := congrArg String.data h0
        simp [String.data_append, sdata_slash] at h1
      unfold parseDisplayDate
      rw [if_neg hne2, hsplit]
      rw [if_pos (by simp)]
      apply str_ext
      have hs := jsSplit_three heq
      rw [show (getJS [d, m, y] 2 ++ "-" ++ getJS [d, m, y] 1 ++ "-" ++ getJS [d, m, y] 0) =
        (y ++ "-" ++ m ++ "-" ++ d) from rfl]
      rw [hs]
      simp [String.data_append, sdata_dash, List.append_assoc]
    next => simp at hv
  · intro t hv
    unfold isValidDisplay at hv
    split at hv
    next d m y heq =>
      simp only [Bool.and_eq_true, decide_eq_true_eq] at hv
      obtain ⟨⟨⟨⟨⟨hd, hld⟩, hm⟩, hlm⟩, hy⟩, hly⟩ := hv
      have hne : t ≠ "" := by
        intro h0
        rw [h0] at heq
        rw [show jsSplit '/' "" = [""] from rfl] at heq
        simp at heq
      have hpar : parseDisplayDate t = y ++ "-" ++ m ++ "-" ++ d := by
        unfold parseDisplayDate
        rw [if_neg hne, heq, if_pos (by simp)]
        rfl
      rw [hpar]
      have hsd : '-' ∉ d.data := not_mem_of_isDigits hd (by decide)
      have hsm : '-' ∉ m.data := not_mem_of_isDigits hm (by decide)
      have hsy : '-' ∉ y.data := not_mem_of_isDigits hy (by decide)
      have hsplit : jsSplit '-' (y ++ "-" ++ m ++ "-" ++ d) = [y, m, d] :=
        jsSplit_parts hsy hsm hsd _
          (by simp [String.data_append, sdata_dash, List.append_assoc])
      have hne2 : (y ++ "-" ++ m ++ "-" ++ d) ≠ "" := by
        intro h0
        have h1 := congrArg String.data h0
        simp [String.data_append, sdata_dash] at h1
      unfold formatDisplayDate
      rw [if_neg hne2, hsplit]
      apply str_ext
      have ht := jsSplit_three heq
      rw [show (getJS [y, m, d] 2 ++ "/" ++ getJS [y, m, d] 1 ++ "/" ++ getJS [y, m, d] 0) =
        (d ++ "/" ++ m ++ "/" ++ y) from rfl]
      rw [ht]
      simp [String.data_append, sdata_slash, List.append_assoc]
    next => simp at hv

/-- Witness for C8: the spec's own example date round-trips both ways. -/
theorem claim_C8_witness :
    parseDisplayDate (formatDisplayDate "2024-12-25") = "2024-12-25" ∧
    formatDisplayDate (parseDisplayDate "25/12/2024") = "25/12/2024" :=
  ⟨claim_C8.1 "2024-12-25" (by decide), claim_C8.2 "25/12/2024" (by decide)⟩

theorem dateMatch_iff (v d m y : String) :
    dateMatch v = some (d, m, y) ↔
      (v = d ++ "/" ++ m ++ "/" ++ y ∧ isDigits d = true ∧ 1 ≤ d.length ∧ d.length ≤ 2 ∧
        isDigits m = true ∧ 1 ≤ m.length ∧ m.length ≤ 2 ∧ isDigits y = true ∧ y.length = 4) := by
  constructor
  · intro h
    unfold dateMatch at h
    split at h
    next a b c heq =>
      split at h
      next hcond =>
        simp only [Option.some.injEq, Prod.mk.injEq] at h
        obtain ⟨had, hbm, hcy⟩ := h
        subst had hbm hcy
        simp only [Bool.and_eq_true, decide_eq_true_eq] at hcond
        obtain ⟨⟨⟨⟨⟨⟨⟨hd, h1d⟩, h2d⟩, hm⟩, h1m⟩, h2m⟩, hy⟩, hly⟩ := hcond
        refine ⟨?_, hd, h1d, h2d, hm, h1m, h2m, hy, hly⟩
        apply str_ext
        rw [jsSplit_three heq]
        simp [String.data_append, sdata_slash, List.append_assoc]
      next => exact absurd h (by simp)
    next => exact absurd h (by simp)
  · rintro ⟨hv, hd, h1d, h2d, hm, h1m, h2m, hy, hly⟩
    subst hv
    unfold dateMatch
    rw [jsSplit_parts (not_mem_of_isDigits hd (by decide)) (not_mem_of_isDigits hm (by decide))
      (not_mem_of_isDigits hy (by decide)) _
      (by simp [String.data_append, sdata_slash, List.append_assoc])]
    simp [hd, h1d, h2d, hm, h1m, h2m, hy, hly]

theorem coerceField_date_some_match {v d m y : String} (h : dateMatch v = some (d, m, y)) :
    coerceField "Date" (some v) = .str (y ++ "-" ++ padStart2 m ++ "-" ++ padStart2 d) := by
  simp only [coerceField, h]
  rfl

theorem coerceField_date_some_none {v : String} (h : dateMatch v = none) :
    coerceField "Date" (some v) = .str v := by
  simp only [coerceField, h]
  rfl

theorem coerceField_date_none : coerceField "Date" none = .str "" := rfl

/-- Claim C4 — In parseCSV, for every data-row field under a header named
exactly "Date": if the value matches the pattern D{1,2}/D{1,2}/YYYY (here
characterised exactly: three slash-separated all-digit groups of lengths 1–2,
1–2 and 4) it is reinterpreted as day/month/year and re-emitted as zero-padded
ISO YYYY-MM-DD; if it does not match, the raw string is kept unchanged. -/
theorem claim_C4 :
    (∀ v d m y, dateMatch v = some (d, m, y) ↔
      (v = d ++ "/" ++ m ++ "/" ++ y ∧ isDigits d = true ∧ 1 ≤ d.length ∧ d.length ≤ 2 ∧
        isDigits m = true ∧ 1 ≤ m.length ∧ m.length ≤ 2 ∧ isDigits y = true ∧
        y.length = 4)) ∧
    (∀ v d m y, dateMatch v = some (d, m, y) →
      coerceField "Date" (some v) = .str (y ++ "-" ++ padStart2 m ++ "-" ++ padStart2 d)) ∧
    (∀ v, dateMatch v = none → coerceField "Date" (some v) = .str v) := by
  refine ⟨dateMatch_iff, ?_, ?_⟩
  · intro v d m y h
    exact coerceField_date_some_match h
  · intro v h
    exact coerceField_date_some_none h

/-- Witness for C4: the spec's example "25/12/2024" becomes "2024-12-25", and
a non-matching value passes through unchanged. -/
theorem claim_C4_witness :
    coerceField "Date" (some "25/12/2024") = .str "2024-12-25" ∧
    coerceField "Date" (some "Dec 25") = .str "Dec 25" := by
  constructor
  · have h := claim_C4.2.1 "25/12/2024" "25" "12" "2024" (by decide)
    exact h.trans (by decide)
  · exact claim_C4.2.2 "Dec 25" (by decide)

theorem sdata_quote : ("\"" : String).data = ['"'] := rfl

theorem tokAux_no_quote {l : List Char} (h : '"' ∉ l) (cur : List Char) :
    tokAux l false cur = (splitChAux ',' l cur).map (fun cs => jsTrim (String.mk cs)) := by
  induction l generalizing cur with
  | nil => simp [tokAux, splitChAux]
  | cons x xs ih =>
    have hx : x ≠ '"' := fun he => h (he ▸ List.mem_cons_self x xs)
    have hxs : '"' ∉ xs := fun hm => h (List.mem_cons_of_mem x hm)
    by_cases hc : x = ','
    · subst hc
      simp [tokAux, splitChAux, ih hxs]
    · simp [tokAux, splitChAux, hx, hc, ih hxs]

theorem tokAux_quoted {l : List Char} (h : '"' ∉ l) (rest cur : List Char) :
    tokAux (l ++ '"' :: rest) true cur = tokAux rest false (cur ++ l) := by
  induction l generalizing cur with
  | nil => simp [tokAux]
  | cons x xs ih =>
    have hx : x ≠ '"' := fun he => h (he ▸ List.mem_cons_self x xs)
    have hxs : '"' ∉ xs := fun hm => h (List.mem_cons_of_mem x hm)
    rw [List.cons_append]
    rw [show tokAux (x :: (xs ++ '"' :: rest)) true cur =
      tokAux (xs ++ '"' :: rest) true (cur ++ [x]) from by simp [tokAux, hx]]
    rw [ih hxs (cur ++ [x])]
    simp

theorem tokAux_out_no_quote :
    ∀ (l : List Char) (inQ : Bool) (cur : List Char), '"' ∉ cur →
      ∀ t ∈ tokAux l inQ cur, '"' ∉ t.data := by
  intro l
  induction l with
  | nil =>
    intro inQ cur hcur t ht
    simp only [tokAux, List.mem_singleton] at ht
    subst ht
    intro hm
    exact hcur (mem_of_mem_jsTrim hm)
  | cons c cs ih =>
    intro inQ cur hcur t ht
    by_cases hq : c = '"'
    · subst hq
      rw [show tokAux ('"' :: cs) inQ cur = tokAux cs (!inQ) cur from by simp [tokAux]] at ht
      exact ih _ _ hcur t ht
    · cases inQ with
      | true =>
        rw [show tokAux (c :: cs) true cur = tokAux cs true (cur ++ [c]) from by
          simp [tokAux, hq]] at ht
        refine ih _ _ ?_ t ht
        intro hmem
        rcases List.mem_append.mp hmem with h1 | h1
        · exact hcur h1
        · simp at h1
          exact hq h1.symm
      | false =>
        by_cases hc : c = ','
        · subst hc
          rw [show tokAux (',' :: cs) false cur =
            jsTrim (String.mk cur) :: tokAux cs false [] from by simp [tokAux]] at ht
          rcases List.mem_cons.mp ht with h1 | h1
          · subst h1
            intro hm
            exact hcur (mem_of_mem_jsTrim hm)
          · exact ih _ _ (by simp) t h1
        · rw [show tokAux (c :: cs) false cur = tokAux cs false (cur ++ [c]) from by
            simp [tokAux, hq, hc]] at ht
          refine ih _ _ ?_ t ht
          intro hmem
          rcases List.mem_append.mp hmem with h1 | h1
          · exact hcur h1
          · simp at h1
            exact hq h1.symm

/-- Counterexample for C3: on the CSV input with one data field `"x""y"`, the
decoder produces the field value "xy" — the doubled quote is dropped entirely
(each quote character merely toggles quote mode and is never emitted) — not
the literal-quote value the claim mandates. -/
theorem claim_C3_counterexample :
    parseCSV "H\n\"x\"\"y\"" = some [⟨"row-0", [("H", .str "xy")]⟩] ∧
      ("xy" : String) ≠ "x\"y" :=
  ⟨by decide, by decide⟩

/-- Claim C3 (amended) — parseCSV's tokenizer splits fields on commas only
outside of quotes (on quote-free input it agrees with a plain comma split, and
a quoted field may contain embedded commas), but a doubled quote inside a
quoted field decodes to the empty string (it is dropped), not to a literal
quote character: quotes only toggle quote mode and are never copied. -/
theorem claim_C3 :
    (∀ s : String, '"' ∉ s.data → tokenize s = (jsSplit ',' s).map jsTrim) ∧
    (∀ s : String, '"' ∉ s.data → tokenize ("\"" ++ s ++ "\"") = [jsTrim s]) ∧
    (∀ s t : String, '"' ∉ s.data → '"' ∉ t.data →
      tokenize ("\"" ++ s ++ "\"\"" ++ t ++ "\"") = [jsTrim (s ++ t)]) := by
  refine ⟨?_, ?_, ?_⟩
  · intro s h
    unfold tokenize jsSplit
    rw [tokAux_no_quote h, List.map_map]
    rfl
  · intro s h
    unfold tokenize
    rw [show ("\"" ++ s ++ "\"").data = '"' :: (s.data ++ '"' :: []) from by
      simp [String.data_append, sdata_quote]]
    rw [show tokAux ('"' :: (s.data ++ '"' :: [])) false [] =
      tokAux (s.data ++ '"' :: []) true [] from by simp [tokAux]]
    rw [tokAux_quoted h]
    simp [tokAux]
  · intro s t hs ht
    unfold tokenize
    rw [show ("\"" ++ s ++ "\"\"" ++ t ++ "\"").data =
      '"' :: (s.data ++ '"' :: ('"' :: (t.data ++ '"' :: []))) from by
      simp [String.data_append, sdata_quote]]
    rw [show tokAux ('"' :: (s.data ++ '"' :: ('"' :: (t.data ++ '"' :: [])))) false [] =
      tokAux (s.data ++ '"' :: ('"' :: (t.data ++ '"' :: []))) true [] from by simp [tokAux]]
    rw [tokAux_quoted hs]
    rw [show tokAux ('"' :: (t.data ++ '"' :: [])) false ([] ++ s.data) =
      tokAux (t.data ++ '"' :: []) true s.data from by simp [tokAux]]
    rw [tokAux_quoted ht]
    simp only [tokAux]
    rw [show String.mk (s.data ++ t.data) = s ++ t from str_ext (by simp [String.data_append])]

/-- Witness for C3: a quoted field with an embedded comma stays one field. -/
theorem claim_C3_witness :
    ('"' ∉ ("p,q" : String).data) ∧ tokenize "\"p,q\"" = [jsTrim "p,q"] ∧
      jsTrim "p,q" = "p,q" :=
  ⟨by decide, claim_C3.2.1 "p,q" (by decide), by decide⟩

theorem length_mapIdxFrom (f : Nat → α → β) (n : Nat) (l : List α) :
    (mapIdxFrom f n l).length = l.length := by
  induction l generalizing n with
  | nil => rfl
  | cons x xs ih => simp [mapIdxFrom, ih]

theorem map_mapIdxFrom (f : Nat → α → β) (pr : β → γ) (n : Nat) (l : List α) :
    (mapIdxFrom f n l).map pr = mapIdxFrom (fun i a => pr (f i a)) n l := by
  induction l generalizing n with
  | nil => rfl
  | cons x xs ih => simp [mapIdxFrom, ih]

theorem mapIdxFrom_congr {f g : Nat → α → β} (h : ∀ i a, f i a = g i a) (n : Nat)
    (l : List α) : mapIdxFrom f n l = mapIdxFrom g n l := by
  induction l generalizing n with
  | nil => rfl
  | cons x xs ih => simp [mapIdxFrom, h, ih]

theorem mapIdxFrom_const (g : Nat → β) (n : Nat) (l : List α) :
    mapIdxFrom (fun i _ => g i) n l = (List.range' n l.length).map g := by
  induction l generalizing n with
  | nil => rfl
  | cons x xs ih => simp [mapIdxFrom, List.range'_succ, ih]

theorem mem_mapIdxFrom {f : Nat → α → β} {x : β} :
    ∀ {n : Nat} {l : List α}, x ∈ mapIdxFrom f n l → ∃ i a, a ∈ l ∧ x = f i a := by
  intro n l
  induction l generalizing n with
  | nil => simp [mapIdxFrom]
  | cons y ys ih =>
    intro hx
    rcases List.mem_cons.mp hx with h1 | h1
    · exact ⟨n, y, List.mem_cons_self _ _, h1⟩
    · obtain ⟨i, a, ha, he⟩ := ih h1
      exact ⟨i, a, List.mem_cons_of_mem _ ha, he⟩

/-- Counterexample for C6: on an input with no non-empty line the JS code
evaluates `lines[0].split(',')` on `undefined` and throws a TypeError instead
of returning a (zero-record) list, so the claim's "for every input text"
fails at the empty input. -/
theorem claim_C6_counterexample : parseCSV "" = none := rfl

/-- Claim C6 (amended) — For every input text with at least one non-empty
line (i.e. on which parseCSV returns at all), parseCSV returns exactly one
record per non-empty data line (the non-empty trimmed lines after the first),
and each decoded record's id is the string "row-" followed by the record's
zero-based position among those data lines (not among all lines of the
input). -/
theorem claim_C6 (text : String) (recs : List CSVRecord) (h : parseCSV text = some recs) :
    recs.length = (csvLines text).length - 1 ∧
    recs.map CSVRecord.id =
      (List.range ((csvLines text).length - 1)).map (fun i => "row-" ++ toString i) := by
  unfold parseCSV at h
  rcases hcl : csvLines text with _ | ⟨l0, rest⟩ <;> rw [hcl] at h
  · exact absurd h (by simp)
  · simp only [Option.some.injEq] at h
    subst h
    constructor
    · simp [length_mapIdxFrom]
    · have hids : ∀ (hs : List String) (n : Nat) (ls : List String),
          (mapIdxFrom (fun index line => mkCSVRecord hs index line) n ls).map CSVRecord.id =
            (List.range' n ls.length).map (fun i => "row-" ++ toString i) := by
        intro hs n ls
        induction ls generalizing n with
        | nil => rfl
        | cons x xs ih =>
          simp only [mapIdxFrom, List.map_cons, List.length_cons, List.range'_succ]
          rw [ih]
          rfl
      rw [hids]
      simp [List.range_eq_range']

/-- Witness for C6: a three-line file (header + two data rows) decodes to two
records with ids "row-0" and "row-1". -/
theorem claim_C6_witness :
    ((parseCSV "A,B\nx,y\nz,w").getD []).length = (csvLines "A,B\nx,y\nz,w").length - 1 ∧
    ((parseCSV "A,B\nx,y\nz,w").getD []).map CSVRecord.id =
      (List.range ((csvLines "A,B\nx,y\nz,w").length - 1)).map
        (fun i => "row-" ++ toString i) :=
  claim_C6 "A,B\nx,y\nz,w" ((parseCSV "A,B\nx,y\nz,w").getD []) rfl

/-- Claim C7 — In parseCSV, every field whose header contains the substring
"QTY", equals "SI QTY", or is a catalog package key is parsed as a
floating-point number, and any value that fails to parse (NaN) is coerced to
0 rather than producing an error; malformed numeric input is never surfaced
as a failure. -/
theorem claim_C7 (header : String) (val : Option String)
    (h : strHasSub header "QTY" = true ∨ header = "SI QTY" ∨ header ∈ PACKAGE_COLUMNS) :
    coerceField header val = .num ((val.bind jsParseFloat).getD 0) := by
  have hnd : header ≠ "Date" := by
    rintro rfl
    rcases h with h | h | h
    · exact absurd h (by decide)
    · exact absurd h (by decide)
    · exact absurd h (by decide)
  have hnum : isNumericHeader header = true := by
    unfold isNumericHeader
    rcases h with h | h | h <;> simp [h]
  unfold coerceField
  rw [if_neg hnd, if_pos hnum]
  cases val <;> rfl

/-- Witness for C7: the malformed numeric value "abc" under the numeric
header "QTY" decodes to the number 0, not an error. -/
theorem claim_C7_witness : coerceField "QTY" (some "abc") = .num 0 :=
  (claim_C7 "QTY" (some "abc") (Or.inl (by decide))).trans (by decide)

theorem stripQuotes_no_quote (v : String) : '"' ∉ (stripQuotes v).data := by
  intro hm
  simp only [stripQuotes, List.mem_filter] at hm
  exact absurd hm.2 (by simp)

theorem mem_padStart2 {c : Char} {s : String} (h : c ∈ (padStart2 s).data) :
    c ∈ s.data ∨ c = '0' := by
  unfold padStart2 at h
  split at h
  · rcases List.mem_append.mp h with h1 | h1
    · exact Or.inr (List.eq_of_mem_replicate h1)
    · exact Or.inl h1
  · exact Or.inl h

theorem no_quote_iso {d m y : String} (hd : isDigits d = true) (hm : isDigits m = true)
    (hy : isDigits y = true) :
    '"' ∉ (y ++ "-" ++ padStart2 m ++ "-" ++ padStart2 d).data := by
  intro hmem
  simp only [String.data_append, sdata_dash, List.append_assoc, List.mem_append] at hmem
  rcases hmem with h1 | h1 | h1 | h1 | h1
  · exact not_mem_of_isDigits hy (by decide) h1
  · simp at h1
  · rcases mem_padStart2 h1 with h3 | h3
    · exact not_mem_of_isDigits hm (by decide) h3
    · simp at h3
  · simp at h1
  · rcases mem_padStart2 h1 with h4 | h4
    · exact not_mem_of_isDigits hd (by decide) h4
    · simp at h4

theorem coerce_str_no_quote (header : String) (val : Option String)
    (hval : ∀ v, val = some v → '"' ∉ v.data) (s : String)
    (hs : coerceField header val = .str s) : '"' ∉ s.data := by
  by_cases hD : header = "Date"
  · subst hD
    rcases val with _ | v
    · rw [coerceField_date_none] at hs
      simp only [FieldVal.str.injEq] at hs
      subst hs
      simp
    · rcases hdm : dateMatch v with _ | ⟨d, m, y⟩
      · rw [coerceField_date_some_none hdm] at hs
        simp only [FieldVal.str.injEq] at hs
        subst hs
        exact hval v rfl
      · rw [coerceField_date_some_match hdm] at hs
        simp only [FieldVal.str.injEq] at hs
        subst hs
        obtain ⟨_, hd, _, _, hm, _, _, hy, _⟩ := (dateMatch_iff v d m y).mp hdm
        exact no_quote_iso hd hm hy
  · unfold coerceField at hs
    rw [if_neg hD] at hs
    split at hs
    · rcases val with _ | v <;> simp at hs
    · rcases val with _ | v
      · simp only [Option.getD_none, FieldVal.str.injEq] at hs
        subst hs
        simp
      · simp only [Option.getD_some, FieldVal.str.injEq] at hs
        subst hs
        exact hval v rfl

/-- Claim C9 — For every input text and every record returned by parseCSV, no
decoded string field value contains a double-quote character: the quote-aware
tokenizer never copies a quote character into a field, and every remaining
quote is stripped from the value afterwards. -/
theorem claim_C9 (text : String) (recs : List CSVRecord) (h : parseCSV text = some recs) :
    (∀ rec ∈ recs, ∀ kv ∈ rec.fields, ∀ s, kv.2 = FieldVal.str s → '"' ∉ s.data) ∧
    (∀ line : String, ∀ t ∈ tokenize line, '"' ∉ t.data) := by
  constructor
  · unfold parseCSV at h
    rcases hcl : csvLines text with _ | ⟨l0, rest⟩ <;> rw [hcl] at h
    · exact absurd h (by simp)
    · simp only [Option.some.injEq] at h
      subst h
      intro rec hrec kv hkv s hs
      obtain ⟨i, line, _, hrec'⟩ := mem_mapIdxFrom hrec
      subst hrec'
      simp only [mkCSVRecord] at hkv
      obtain ⟨j, hd, _, hkv'⟩ := mem_mapIdxFrom hkv
      subst hkv'
      refine coerce_str_no_quote hd _ ?_ s hs
      intro v hv
      rcases ho : (tokenize line).get? j with _ | t <;> rw [ho] at hv
      · simp at hv
      · simp at hv
        subst hv
        exact stripQuotes_no_quote t
  · intro line t ht
    exact tokAux_out_no_quote line.data false [] (by simp) t ht

/-- Witness for C9: the decoded field "ab" of a doubly-quoted token is
quote-free, and is indeed a token the tokenizer produces. -/
theorem claim_C9_witness :
    ('"' ∉ ("ab" : String).data) ∧ "ab" ∈ tokenize "\"a\"\"b\",c" :=
  ⟨(claim_C9 "H\nv" [⟨"row-0", [("H", FieldVal.str "v")]⟩] rfl).2 "\"a\"\"b\",c" "ab"
    (by decide), by decide⟩

/-! ## Lemmas about the dictionary model -/

/-- The `shipmentCounts` dictionary of `aggregateData`: per customer, the
summed QTY, keys in first-encounter order. -/
def shipmentCounts (data : List PackingRecord) : List (String × ℚ) :=
  data.foldl (fun m r => bumpAdd m r.Shipment r.QTY) []

/-- The `modeCounts` dictionary of `aggregateData`: per mode, the record
count, keys in first-encounter order. -/
def modeCounts (data : List PackingRecord) : List (String × ℚ) :=
  data.foldl (fun m r => bumpAdd m r.Mode 1) []

/-- Summed QTY of the records of one customer. -/
def customerSum (data : List PackingRecord) (c : String) : ℚ :=
  (data.map (fun r => if r.Shipment = c then r.QTY else 0)).sum

/-- Number of records (as a ℚ) of one transport mode. -/
def modeTally (data : List PackingRecord) (c : String) : ℚ :=
  (data.map (fun r => if r.Mode = c then (1 : ℚ) else 0)).sum

theorem alook_bumpAdd_some {α : Type} [Add α] {m : List (String × α)} {k : String} {w : α}
    (h : alook m k = some w) (v : α) : alook (bumpAdd m k v) k = some (w + v) := by
  induction m with
  | nil => simp [alook] at h
  | cons kv rest ih =>
    by_cases hk : kv.1 = k
    · simp only [alook, hk, if_pos, Option.some.injEq] at h
      simp [bumpAdd, alook, hk, h]
    · simp only [alook, hk, if_neg, ite_false] at h
      simp [bumpAdd, alook, hk, ih h]

theorem alook_bumpAdd_none {α : Type} [Add α] {m : List (String × α)} {k : String}
    (h : alook m k = none) (v : α) : alook (bumpAdd m k v) k = some v := by
  induction m with
  | nil => simp [bumpAdd, alook]
  | cons kv rest ih =>
    by_cases hk : kv.1 = k
    · simp [alook, hk] at h
    · simp only [alook, hk, ite_false] at h
      simp [bumpAdd, alook, hk, ih h]

theorem alook_bumpAdd_other {α : Type} [Add α] {m : List (String × α)} {k k' : String}
    (h : k' ≠ k) (v : α) : alook (bumpAdd m k v) k' = alook m k' := by
  have hkk : ¬(k = k') := fun he => h he.symm
  induction m with
  | nil => simp [bumpAdd, alook, hkk]
  | cons kv rest ih =>
    by_cases hk : kv.1 = k
    · simp [bumpAdd, alook, hk, hkk]
    · by_cases hk' : kv.1 = k'
      · simp [bumpAdd, alook, hk, hk', h]
      · simp [bumpAdd, alook, hk, hk', ih]

theorem alook_eq_none_iff {α : Type} {m : List (String × α)} {k : String} :
    alook m k = none ↔ k ∉ m.map Prod.fst := by
  induction m with
  | nil => simp [alook]
  | cons kv rest ih =>
    by_cases hk : kv.1 = k
    · simp [alook, hk]
    · have h2 : ¬(k = kv.1) := fun he => hk he.symm
      simp [alook, hk, ih, h2]

theorem map_fst_bumpAdd_of_some {α : Type} [Add α] {m : List (String × α)} {k : String}
    {w : α} (h : alook m k = some w) (v : α) :
    (bumpAdd m k v).map Prod.fst = m.map Prod.fst := by
  induction m with
  | nil => simp [alook] at h
  | cons kv rest ih =>
    by_cases hk : kv.1 = k
    · simp [bumpAdd, hk]
    · simp only [alook, hk, ite_false] at h
      simp [bumpAdd, hk, ih h]

theorem map_fst_bumpAdd_of_none {α : Type} [Add α] {m : List (String × α)} {k : String}
    (h : alook m k = none) (v : α) :
    (bumpAdd m k v).map Prod.fst = m.map Prod.fst ++ [k] := by
  induction m with
  | nil => simp [bumpAdd]
  | cons kv rest ih =>
    by_cases hk : kv.1 = k
    · simp [alook, hk] at h
    · simp only [alook, hk, ite_false] at h
      simp [bumpAdd, hk, ih h]

theorem nodup_keys_bumpAdd {α : Type} [Add α] {m : List (String × α)} {k : String} {v : α}
    (h : (m.map Prod.fst).Nodup) : ((bumpAdd m k v).map Prod.fst).Nodup := by
  rcases ha : alook m k with _ | w
  · rw [map_fst_bumpAdd_of_none ha]
    have hk := alook_eq_none_iff.mp ha
    simp [List.nodup_append, h, hk]
  · rw [map_fst_bumpAdd_of_some ha]
    exact h

theorem alook_of_mem_nodup {α : Type} {m : List (String × α)}
    (h : (m.map Prod.fst).Nodup) {kv : String × α} (hm : kv ∈ m) :
    alook m kv.1 = some kv.2 := by
  induction m with
  | nil => simp at hm
  | cons x rest ih =>
    rcases List.mem_cons.mp hm with h1 | h1
    · subst h1
      simp [alook]
    · have hx : x.1 ≠ kv.1 := by
        intro he
        have hmk : kv.1 ∈ rest.map Prod.fst := List.mem_map.mpr ⟨kv, h1, rfl⟩
        rw [← he] at hmk
        exact (List.nodup_cons.mp (by simpa using h)).1 hmk
      simp only [alook, hx, ite_false]
      exact ih (List.nodup_cons.mp (by simpa using h)).2 h1

theorem mem_keys_bumpAdd_self {α : Type} [Add α] (m : List (String × α)) (k : String)
    (v : α) : k ∈ (bumpAdd m k v).map Prod.fst := by
  rcases ha : alook m k with _ | w
  · rw [map_fst_bumpAdd_of_none ha]
    simp
  · rw [map_fst_bumpAdd_of_some ha]
    by_contra hk
    rw [alook_eq_none_iff.mpr hk] at ha
    exact Option.noConfusion ha

theorem mem_keys_bumpAdd_mono {α : Type} [Add α] {m : List (String × α)} {k' : String}
    (h : k' ∈ m.map Prod.fst) (k : String) (v : α) :
    k' ∈ (bumpAdd m k v).map Prod.fst := by
  rcases ha : alook m k with _ | w
  · rw [map_fst_bumpAdd_of_none ha]
    exact List.mem_append_left _ h
  · rw [map_fst_bumpAdd_of_some ha]
    exact h

/-- Value read with JS default: `m[k] || 0`. -/
def valD {α : Type} [Zero α] (m : List (String × α)) (k : String) : α :=
  (alook m k).getD 0

theorem valD_bumpAdd {α : Type} [AddMonoid α] (m : List (String × α)) (k k' : String)
    (v : α) : valD (bumpAdd m k v) k' = valD m k' + (if k' = k then v else 0) := by
  by_cases hk : k' = k
  · subst hk
    rcases ha : alook m k' with _ | w
    · rw [valD, alook_bumpAdd_none ha]
      simp [valD, ha]
    · rw [valD, alook_bumpAdd_some ha]
      simp [valD, ha]
  · rw [valD, alook_bumpAdd_other hk, if_neg hk]
    simp [valD]

theorem valD_fold_bump {α : Type} [AddMonoid α] (f : PackingRecord → String)
    (g : PackingRecord → α) :
    ∀ (data : List PackingRecord) (m : List (String × α)) (k : String),
      valD (data.foldl (fun m r => bumpAdd m (f r) (g r)) m) k =
        valD m k + (data.map (fun r => if f r = k then g r else 0)).sum := by
  intro data
  induction data with
  | nil => simp
  | cons r rest ih =>
    intro m k
    simp only [List.foldl_cons, List.map_cons, List.sum_cons]
    rw [ih, valD_bumpAdd, add_assoc]
    congr 2
    by_cases hfr : f r = k
    · simp [hfr]
    · simp only [hfr, ite_false, ite_eq_right_iff]
      exact fun he => absurd he.symm hfr

theorem nodup_keys_fold_bump {α : Type} [Add α] (f : PackingRecord → String)
    (g : PackingRecord → α) :
    ∀ (data : List PackingRecord) (m : List (String × α)),
      (m.map Prod.fst).Nodup →
      ((data.foldl (fun m r => bumpAdd m (f r) (g r)) m).map Prod.fst).Nodup := by
  intro data
  induction data with
  | nil => exact fun m h => h
  | cons r rest ih =>
    intro m h
    exact ih _ (nodup_keys_bumpAdd h)

theorem mem_keys_fold_bump_mono {α : Type} [Add α] (f : PackingRecord → String)
    (g : PackingRecord → α) :
    ∀ (data : List PackingRecord) (m : List (String × α)) {k : String},
      k ∈ m.map Prod.fst →
      k ∈ ((data.foldl (fun m r => bumpAdd m (f r) (g r)) m).map Prod.fst) := by
  intro data
  induction data with
  | nil => exact fun m _ h => h
  | cons r rest ih =>
    intro m k h
    exact ih _ (mem_keys_bumpAdd_mono h _ _)

theorem mem_keys_fold_bump {α : Type} [Add α] (f : PackingRecord → String)
    (g : PackingRecord → α) :
    ∀ (data : List PackingRecord) (m : List (String × α)) {r : PackingRecord}, r ∈ data →
      f r ∈ ((data.foldl (fun m r => bumpAdd m (f r) (g r)) m).map Prod.fst) := by
  intro data
  induction data with
  | nil => intro m r h; simp at h
  | cons r' rest ih =>
    intro m r h
    rcases List.mem_cons.mp h with h1 | h1
    · subst h1
      exact mem_keys_fold_bump_mono f g rest _ (mem_keys_bumpAdd_self m (f r) (g r))
    · exact ih _ h1

/-! ## Lemmas about the stable descending sort -/

theorem sortByDesc_head {α : Type} (key : α → ℚ) :
    ∀ (l : List α), l ≠ [] →
      ∃ e l₁ l₂, l = l₁ ++ e :: l₂ ∧ (sortByDesc key l).head? = some e ∧
        (∀ x ∈ l, key x ≤ key e) ∧ (∀ x ∈ l₁, key x < key e) := by
  intro l
  induction l with
  | nil => intro h; exact absurd rfl h
  | cons a l ih =>
    intro _
    by_cases hl : l = []
    · subst hl
      exact ⟨a, [], [], by simp, by simp [sortByDesc, insertDescBy], by simp, by simp⟩
    · obtain ⟨e, l₁, l₂, hdec, hhead, hmax, hstrict⟩ := ih hl
      obtain ⟨t, ht⟩ : ∃ t, sortByDesc key l = e :: t := by
        rcases hs : sortByDesc key l with _ | ⟨x, t⟩
        · rw [hs] at hhead
          simp at hhead
        · rw [hs] at hhead
          simp only [List.head?_cons, Option.some.injEq] at hhead
          exact ⟨t, by rw [hhead]⟩
      by_cases hcmp : key e ≤ key a
      · refine ⟨a, [], l, by simp, ?_, ?_, by simp⟩
        · rw [show sortByDesc key (a :: l) = insertDescBy key a (sortByDesc key l) from rfl,
            ht]
          simp [insertDescBy, hcmp]
        · intro x hx
          rcases List.mem_cons.mp hx with h1 | h1
          · subst h1
            exact le_refl _
          · exact le_trans (hmax x h1) hcmp
      · push_neg at hcmp
        refine ⟨e, a :: l₁, l₂, by simp [hdec], ?_, ?_, ?_⟩
        · rw [show sortByDesc key (a :: l) = insertDescBy key a (sortByDesc key l) from rfl,
            ht]
          simp [insertDescBy, not_le.mpr hcmp]
        · intro x hx
          rcases List.mem_cons.mp hx with h1 | h1
          · subst h1
            exact le_of_lt hcmp
          · exact hmax x h1
        · intro x hx
          rcases List.mem_cons.mp hx with h1 | h1
          · subst h1
            exact hcmp
          · exact hstrict x h1

theorem mem_insertDescBy {α : Type} (key : α → ℚ) (x : α) :
    ∀ (l : List α) (y : α), y ∈ insertDescBy key x l ↔ y = x ∨ y ∈ l := by
  intro l
  induction l with
  | nil => simp [insertDescBy]
  | cons z zs ih =>
    intro y
    by_cases hc : key z ≤ key x
    · simp [insertDescBy, hc]
    · simp [insertDescBy, hc, ih]
      tauto

theorem mem_sortByDesc {α : Type} (key : α → ℚ) :
    ∀ (l : List α) (y : α), y ∈ sortByDesc key l ↔ y ∈ l := by
  intro l
  induction l with
  | nil => simp [sortByDesc]
  | cons z zs ih =>
    intro y
    simp [sortByDesc, mem_insertDescBy, ih]

theorem mem_insertAscIdx {α : Type} (x : String × α) :
    ∀ (l : List (String × α)) (y : String × α), y ∈ insertAscIdx x l ↔ y = x ∨ y ∈ l := by
  intro l
  induction l with
  | nil => simp [insertAscIdx]
  | cons z zs ih =>
    intro y
    by_cases hc : digitsVal x.1.data ≤ digitsVal z.1.data
    · simp [insertAscIdx, hc]
    · simp [insertAscIdx, hc, ih]
      tauto

theorem mem_sortAscIdx {α : Type} :
    ∀ (l : List (String × α)) (y : String × α), y ∈ sortAscIdx l ↔ y ∈ l := by
  intro l
  induction l with
  | nil => simp [sortAscIdx]
  | cons z zs ih =>
    intro y
    simp [sortAscIdx, mem_insertAscIdx, ih]

theorem mem_jsEntries {α : Type} (m : List (String × α)) (x : String × α) :
    x ∈ jsEntries m ↔ x ∈ m := by
  simp only [jsEntries, List.mem_append, mem_sortAscIdx, List.mem_filter]
  by_cases hx : isArrayIndex x.1 <;> simp [hx]

/-- No group name is an array index, so the enumeration order of the
`PACKAGE_GROUPS` object literal is its insertion order. -/
theorem jsEntries_groups : jsEntries PACKAGE_GROUPS = PACKAGE_GROUPS := by decide

/-! ## Projections of the chart-aggregation fold -/

theorem chartFold_ship :
    ∀ (data : List PackingRecord) (acc : ChartAcc),
      (data.foldl chartStep acc).ship =
        data.foldl (fun m r => bumpAdd m r.Shipment r.QTY) acc.ship := by
  intro data
  induction data with
  | nil => intro acc; rfl
  | cons r rest ih =>
    intro acc
    simp only [List.foldl_cons]
    rw [ih]
    rfl

theorem chartFold_mode :
    ∀ (data : List PackingRecord) (acc : ChartAcc),
      (data.foldl chartStep acc).mode =
        data.foldl (fun m r => bumpAdd m r.Mode 1) acc.mode := by
  intro data
  induction data with
  | nil => intro acc; rfl
  | cons r rest ih =>
    intro acc
    simp only [List.foldl_cons]
    rw [ih]
    rfl

theorem aggregateData_topCustomer (data : List PackingRecord) :
    (aggregateData data).stats.topCustomer = topName (jsEntries (shipmentCounts data)) := by
  show topName (jsEntries ((data.foldl chartStep chartInit).ship)) =
    topName (jsEntries (shipmentCounts data))
  rw [chartFold_ship]
  rfl

theorem aggregateData_topMode (data : List PackingRecord) :
    (aggregateData data).stats.topMode = topName (jsEntries (modeCounts data)) := by
  show topName (jsEntries ((data.foldl chartStep chartInit).mode)) =
    topName (jsEntries (modeCounts data))
  rw [chartFold_mode]
  rfl

theorem topEntry_spec (f : PackingRecord → String) (g : PackingRecord → ℚ)
    (data : List PackingRecord) (hne : data ≠ []) :
    ∃ e l₁ l₂,
      jsEntries (data.foldl (fun m r => bumpAdd m (f r) (g r)) []) = l₁ ++ e :: l₂ ∧
      (∀ x ∈ l₁, x.2 < e.2) ∧
      (∀ x ∈ jsEntries (data.foldl (fun m r => bumpAdd m (f r) (g r)) []), x.2 ≤ e.2) ∧
      (∀ x ∈ jsEntries (data.foldl (fun m r => bumpAdd m (f r) (g r)) []),
        x.2 = (data.map (fun r => if f r = x.1 then g r else 0)).sum) ∧
      (∀ r ∈ data, ∃ x ∈ jsEntries (data.foldl (fun m r => bumpAdd m (f r) (g r)) []),
        x.1 = f r) ∧
      topName (jsEntries (data.foldl (fun m r => bumpAdd m (f r) (g r)) [])) =
        (if e.1 = "" then "N/A" else e.1) := by
  set counts := data.foldl (fun m r => bumpAdd m (f r) (g r)) [] with hcounts
  have hnodup : (counts.map Prod.fst).Nodup := nodup_keys_fold_bump f g data [] (by simp)
  have hval : ∀ x ∈ jsEntries counts,
      x.2 = (data.map (fun r => if f r = x.1 then g r else 0)).sum := by
    intro x hx
    have hx' : x ∈ counts := (mem_jsEntries counts x).mp hx
    have h1 := alook_of_mem_nodup hnodup hx'
    have h2 := valD_fold_bump f g data [] x.1
    have h3 : valD counts x.1 = x.2 := by
      rw [valD, h1]
      rfl
    rw [← h3, hcounts, h2]
    simp [valD, alook]
  have hmemk : ∀ r ∈ data, ∃ x ∈ jsEntries counts, x.1 = f r := by
    intro r hr
    have h1 : f r ∈ counts.map Prod.fst := by
      rw [hcounts]
      exact mem_keys_fold_bump f g data [] hr
    obtain ⟨x, hx, he⟩ := List.mem_map.mp h1
    exact ⟨x, (mem_jsEntries counts x).mpr hx, he⟩
  have hcne : jsEntries counts ≠ [] := by
    rcases hd : data with _ | ⟨r, rest⟩
    · exact absurd hd hne
    · have h1 : f r ∈ counts.map Prod.fst := by
        rw [hcounts, hd]
        exact mem_keys_fold_bump f g (r :: rest) [] (List.mem_cons_self r rest)
      obtain ⟨x, hx, _⟩ := List.mem_map.mp h1
      exact List.ne_nil_of_mem ((mem_jsEntries counts x).mpr hx)
  obtain ⟨e, l₁, l₂, hdec, hhead, hmax, hstrict⟩ :=
    sortByDesc_head (fun x => x.2) (jsEntries counts) hcne
  refine ⟨e, l₁, l₂, hdec, fun x hx => hstrict x hx, fun x hx => hmax x hx, hval, hmemk, ?_⟩
  unfold topName
  rw [hhead]

/-- Counterexample for C2: the claimed insertion-order tie-break is false of
the program.  For two records with customers "20" (first) and "10" (second)
and equal summed QTY, JS `Object.entries` enumerates the integer-like keys in
ascending numeric order — ["10", "20"] — and the stable descending sort keeps
that order, so the code yields topCustomer = "10", while first-encountered
insertion order would demand "20". -/
theorem claim_C2_counterexample :
    (aggregateData [{ Shipment := "20", QTY := 5 },
      { Shipment := "10", QTY := 5 }]).stats.topCustomer = "10" ∧
    ("10" : String) ≠ "20" :=
  ⟨rfl, by decide⟩

/-- Claim C2 (amended) — For every record list, aggregateData's topCustomer is
obtained from the per-customer summed QTY dictionary, read in JS object
enumeration order — customer names that are canonical array indices first, in
ascending numeric order, then the remaining names in first-encountered
insertion order — by a stable descending sort: the chosen entry has maximal
summed QTY and every entry strictly before it in enumeration order has
strictly smaller value (ties break to the earliest entry in enumeration
order, not to the first-encountered customer); it equals "N/A" when the list
is empty, and otherwise equals the winning customer's name unless that name
is the empty string (falsy), in which case "N/A"; topMode is computed the
same way but ranking modes by the count of records per mode. -/
theorem claim_C2 (data : List PackingRecord) :
    (data = [] → (aggregateData data).stats.topCustomer = "N/A" ∧
      (aggregateData data).stats.topMode = "N/A") ∧
    (data ≠ [] →
      (∃ e l₁ l₂, jsEntries (shipmentCounts data) = l₁ ++ e :: l₂ ∧
        (∀ x ∈ l₁, x.2 < e.2) ∧
        (∀ x ∈ jsEntries (shipmentCounts data), x.2 ≤ e.2) ∧
        (∀ x ∈ jsEntries (shipmentCounts data), x.2 = customerSum data x.1) ∧
        (∀ r ∈ data, ∃ x ∈ jsEntries (shipmentCounts data), x.1 = r.Shipment) ∧
        (aggregateData data).stats.topCustomer = (if e.1 = "" then "N/A" else e.1)) ∧
      (∃ e l₁ l₂, jsEntries (modeCounts data) = l₁ ++ e :: l₂ ∧
        (∀ x ∈ l₁, x.2 < e.2) ∧
        (∀ x ∈ jsEntries (modeCounts data), x.2 ≤ e.2) ∧
        (∀ x ∈ jsEntries (modeCounts data), x.2 = modeTally data x.1) ∧
        (∀ r ∈ data, ∃ x ∈ jsEntries (modeCounts data), x.1 = r.Mode) ∧
        (aggregateData data).stats.topMode = (if e.1 = "" then "N/A" else e.1))) := by
  constructor
  · rintro rfl
    exact ⟨rfl, rfl⟩
  · intro hne
    constructor
    · obtain ⟨e, l₁, l₂, h1, h2, h3, h4, h5, h6⟩ :=
        topEntry_spec (fun r => r.Shipment) (fun r => r.QTY) data hne
      refine ⟨e, l₁, l₂, h1, h2, h3, h4, h5, ?_⟩
      rw [aggregateData_topCustomer]
      exact h6
    · obtain ⟨e, l₁, l₂, h1, h2, h3, h4, h5, h6⟩ :=
        topEntry_spec (fun r => r.Mode) (fun _ => (1 : ℚ)) data hne
      refine ⟨e, l₁, l₂, h1, h2, h3, h4, h5, ?_⟩
      rw [aggregateData_topMode]
      exact h6

/-- Witness records for the aggregation claims. -/
def wrecA : PackingRecord :=
  { Shipment := "A", Mode := "Sea", QTY := 5 }

/-- Second witness record. -/
def wrecB : PackingRecord :=
  { Shipment := "B", Mode := "Air", QTY := 7 }

/-- Witness for C2: the amended statement instantiated at a concrete
two-record list. -/
theorem claim_C2_witness :
    (∃ e l₁ l₂, jsEntries (shipmentCounts [wrecA, wrecB]) = l₁ ++ e :: l₂ ∧
      (∀ x ∈ l₁, x.2 < e.2) ∧
      (∀ x ∈ jsEntries (shipmentCounts [wrecA, wrecB]), x.2 ≤ e.2) ∧
      (∀ x ∈ jsEntries (shipmentCounts [wrecA, wrecB]),
        x.2 = customerSum [wrecA, wrecB] x.1) ∧
      (∀ r ∈ [wrecA, wrecB], ∃ x ∈ jsEntries (shipmentCounts [wrecA, wrecB]),
        x.1 = r.Shipment) ∧
      (aggregateData [wrecA, wrecB]).stats.topCustomer =
        (if e.1 = "" then "N/A" else e.1)) ∧
    (∃ e l₁ l₂, jsEntries (modeCounts [wrecA, wrecB]) = l₁ ++ e :: l₂ ∧
      (∀ x ∈ l₁, x.2 < e.2) ∧
      (∀ x ∈ jsEntries (modeCounts [wrecA, wrecB]), x.2 ≤ e.2) ∧
      (∀ x ∈ jsEntries (modeCounts [wrecA, wrecB]), x.2 = modeTally [wrecA, wrecB] x.1) ∧
      (∀ r ∈ [wrecA, wrecB], ∃ x ∈ jsEntries (modeCounts [wrecA, wrecB]), x.1 = r.Mode) ∧
      (aggregateData [wrecA, wrecB]).stats.topMode = (if e.1 = "" then "N/A" else e.1)) :=
  (claim_C2 [wrecA, wrecB]).2 (by simp)

/-- Claim C5 — aggregateData applied to the empty record list returns
totalItems = 0, totalSI = 0, totalPackages = 0, topCustomer = "N/A",
topMode = "N/A", and empty timeline, package, customer-chart and mode-chart
series; and aggregateData is total (a Lean function defined on every
well-typed input list — it never errors). -/
theorem claim_C5 :
    (aggregateData []).stats.totalItems = 0 ∧ (aggregateData []).stats.totalSI = 0 ∧
    (aggregateData []).stats.totalPackages = 0 ∧
    (aggregateData []).stats.topCustomer = "N/A" ∧
    (aggregateData []).stats.topMode = "N/A" ∧
    (aggregateData []).timelineData = [] ∧ (aggregateData []).packageData = [] ∧
    (aggregateData []).shipmentChartData = [] ∧ (aggregateData []).modeChartData = [] ∧
    (∀ data : List PackingRecord, ∃ out, aggregateData data = out) :=
  ⟨rfl, rfl, rfl, rfl, rfl, rfl, rfl, rfl, rfl, fun data => ⟨aggregateData data, rfl⟩⟩

/-! ## Lemmas about the group/ratio aggregation fold -/

/-- The `groupStats` effect of one row: fold over all groups and their
columns, adding the row's count at the group key. -/
def gsFold1 (row : PackingRecord) (m : List (String × ℚ)) : List (String × ℚ) :=
  PACKAGE_GROUPS.foldl (fun m gc => gc.2.foldl (fun m c => bumpAdd m gc.1 (row.pkg c)) m) m

/-- The `ratioStats` effect of one row. -/
def gsFold2 (row : PackingRecord) (m : List (String × RatioEntry)) :
    List (String × RatioEntry) :=
  PACKAGE_GROUPS.foldl
    (fun m gc => gc.2.foldl (fun m c => bumpAdd m gc.1 ⟨row.pkg c, capTerm row c⟩) m) m

theorem foldl_prod_split {β δ ε : Type} (f1 : β → ε → β) (f2 : δ → ε → δ) :
    ∀ (l : List ε) (p : β × δ),
      l.foldl (fun q c => (f1 q.1 c, f2 q.2 c)) p = (l.foldl f1 p.1, l.foldl f2 p.2) := by
  intro l
  induction l with
  | nil => intro p; simp
  | cons c cs ih =>
    intro p
    simp only [List.foldl_cons]
    exact ih _

theorem pair_fold_split_groups (row : PackingRecord) :
    ∀ (gs : List (String × List String))
      (acc : List (String × ℚ) × List (String × RatioEntry)),
      gs.foldl (fun acc gc => gc.2.foldl
          (fun acc c => (bumpAdd acc.1 gc.1 (row.pkg c),
            bumpAdd acc.2 gc.1 ⟨row.pkg c, capTerm row c⟩)) acc) acc =
        (gs.foldl (fun m gc => gc.2.foldl (fun m c => bumpAdd m gc.1 (row.pkg c)) m) acc.1,
         gs.foldl (fun m gc => gc.2.foldl
           (fun m c => bumpAdd m gc.1 ⟨row.pkg c, capTerm row c⟩) m) acc.2) := by
  intro gs
  induction gs with
  | nil => intro acc; simp
  | cons gc rest ih =>
    intro acc
    simp only [List.foldl_cons]
    rw [foldl_prod_split (fun m c => bumpAdd m gc.1 (row.pkg c))
      (fun m c => bumpAdd m gc.1 ⟨row.pkg c, capTerm row c⟩) gc.2 acc]
    exact ih _

theorem groupStep_split (acc : List (String × ℚ) × List (String × RatioEntry))
    (row : PackingRecord) :
    groupStep acc row = (gsFold1 row acc.1, gsFold2 row acc.2) := by
  unfold groupStep gsFold1 gsFold2
  exact pair_fold_split_groups row PACKAGE_GROUPS acc

theorem groupFold_split (data : List PackingRecord) :
    ∀ (acc : List (String × ℚ) × List (String × RatioEntry)),
      data.foldl groupStep acc =
        (data.foldl (fun m row => gsFold1 row m) acc.1,
         data.foldl (fun m row => gsFold2 row m) acc.2) := by
  induction data with
  | nil => intro acc; simp
  | cons row rest ih =>
    intro acc
    simp only [List.foldl_cons]
    rw [groupStep_split acc row]
    have h2 := ih (gsFold1 row acc.1, gsFold2 row acc.2)
    simp only [] at h2
    convert h2 using 2

theorem alook_cols_fold_same {α : Type} [AddCommMonoid α] (k : String) (f : String → α) :
    ∀ (cols : List String) (m : List (String × α)) (t : α), alook m k = some t →
      alook (cols.foldl (fun m c => bumpAdd m k (f c)) m) k = some (t + (cols.map f).sum) := by
  intro cols
  induction cols with
  | nil => intro m t h; simpa using h
  | cons c cs ih =>
    intro m t h
    simp only [List.foldl_cons, List.map_cons, List.sum_cons]
    rw [ih _ _ (alook_bumpAdd_some h (f c)), add_assoc]

theorem alook_cols_fold_other {α : Type} [Add α] {k k' : String} (h : k' ≠ k)
    (f : String → α) :
    ∀ (cols : List String) (m : List (String × α)),
      alook (cols.foldl (fun m c => bumpAdd m k (f c)) m) k' = alook m k' := by
  intro cols
  induction cols with
  | nil => intro m; rfl
  | cons c cs ih =>
    intro m
    simp only [List.foldl_cons]
    rw [ih, alook_bumpAdd_other h]

theorem alook_gs_fold_not_mem {α : Type} [Add α] (f : String → α) :
    ∀ (gs : List (String × List String)) (m : List (String × α)) {g : String},
      g ∉ gs.map Prod.fst →
      alook (gs.foldl (fun m gc => gc.2.foldl (fun m c => bumpAdd m gc.1 (f c)) m) m) g =
        alook m g := by
  intro gs
  induction gs with
  | nil => intro m g _; rfl
  | cons gc rest ih =>
    intro m g hg
    simp only [List.map_cons, List.mem_cons] at hg
    push_neg at hg
    simp only [List.foldl_cons]
    rw [ih _ hg.2, alook_cols_fold_other hg.1]

theorem alook_gs_fold_same {α : Type} [AddCommMonoid α] (f : String → α) :
    ∀ (gs : List (String × List String)) (m : List (String × α)) {g : String}
      {cols : List String} {t : α},
      (gs.map Prod.fst).Nodup → alook gs g = some cols → alook m g = some t →
      alook (gs.foldl (fun m gc => gc.2.foldl (fun m c => bumpAdd m gc.1 (f c)) m) m) g =
        some (t + (cols.map f).sum) := by
  intro gs
  induction gs with
  | nil => intro m g cols t _ hg _; simp [alook] at hg
  | cons gc rest ih =>
    intro m g cols t hnd hg hm
    simp only [List.foldl_cons]
    rw [List.map_cons] at hnd
    have hnd2 := List.nodup_cons.mp hnd
    by_cases hk : gc.1 = g
    · have hcols : gc.2 = cols := by
        simpa [alook, hk] using hg
      subst hcols
      have hrest : g ∉ rest.map Prod.fst := by
        have h1 := hnd2.1
        rw [hk] at h1
        exact h1
      rw [alook_gs_fold_not_mem f rest _ hrest]
      have hm' : alook m gc.1 = some t := by rw [hk]; exact hm
      have h2 := alook_cols_fold_same gc.1 f gc.2 m t hm'
      rw [← hk]
      exact h2
    · have hg' : alook rest g = some cols := by
        simpa [alook, hk] using hg
      have hm' : alook (gc.2.foldl (fun m c => bumpAdd m gc.1 (f c)) m) g = some t := by
        rw [alook_cols_fold_other (fun he => hk he.symm)]
        exact hm
      exact ih _ hnd2.2 hg' hm'

theorem alook_data_fold {α : Type} [AddCommMonoid α] (f : PackingRecord → String → α)
    {g : String} {cols : List String}
    (hnd : (PACKAGE_GROUPS.map Prod.fst).Nodup) (hg : alook PACKAGE_GROUPS g = some cols) :
    ∀ (data : List PackingRecord) (m : List (String × α)) (t : α), alook m g = some t →
      alook (data.foldl (fun m row => PACKAGE_GROUPS.foldl
          (fun m gc => gc.2.foldl (fun m c => bumpAdd m gc.1 (f row c)) m) m) m) g =
        some (t + (data.map (fun row => (cols.map (f row)).sum)).sum) := by
  intro data
  induction data with
  | nil => intro m t h; simpa using h
  | cons row rest ih =>
    intro m t h
    simp only [List.foldl_cons, List.map_cons, List.sum_cons]
    rw [ih _ _ (alook_gs_fold_same (f row) PACKAGE_GROUPS m hnd hg h), add_assoc]

theorem alook_map_const {α β : Type} (z : α) :
    ∀ (l : List (String × β)) (k : String) {w : β}, alook l k = some w →
      alook (l.map (fun kv => (kv.1, z))) k = some z := by
  intro l
  induction l with
  | nil => intro k w h; simp [alook] at h
  | cons kv rest ih =>
    intro k w h
    by_cases hk : kv.1 = k
    · simp [alook, hk]
    · simp only [alook, hk, ite_false] at h
      simp only [List.map_cons, alook, hk, ite_false]
      exact ih _ h

theorem ratioEntry_sum : ∀ (l : List RatioEntry),
    l.sum = ⟨(l.map RatioEntry.used).sum, (l.map RatioEntry.maxCapacity).sum⟩ := by
  intro l
  induction l with
  | nil => rfl
  | cons a l ih => simp [List.sum_cons, ih, RatioEntry.add_def]

/-- Over the concrete catalog, the code's falsy-guarded ratio
(`PACKAGE_RATIOS[col] || 1`) agrees with the spec's default-1 lookup, and
every ratio is positive. -/
theorem ratio_cols_fact : ∀ c ∈ PACKAGE_COLUMNS,
    jsOrOne (alook PACKAGE_RATIOS c) = (alook PACKAGE_RATIOS c).getD 1 ∧
      0 < (alook PACKAGE_RATIOS c).getD 1 := by decide

theorem groups_cols_sub : ∀ {g : String} {cols : List String},
    alook PACKAGE_GROUPS g = some cols → ∀ c ∈ cols, c ∈ PACKAGE_COLUMNS := by
  intro g cols hg
  simp only [PACKAGE_GROUPS, alook] at hg
  split at hg
  · injection hg with h
    subst h
    decide
  · split at hg
    · injection hg with h
      subst h
      decide
    · split at hg
      · injection hg with h
        subst h
        decide
      · split at hg
        · injection hg with h
          subst h
          decide
        · exact absurd hg (by simp)

theorem capTerm_eq {c : String} (hc : c ∈ PACKAGE_COLUMNS) (row : PackingRecord) :
    capTerm row c = row.pkg c / (alook PACKAGE_RATIOS c).getD 1 := by
  obtain ⟨h1, h2⟩ := ratio_cols_fact c hc
  simp only [capTerm]
  rw [h1, if_pos h2]

theorem groupFold_fst (data : List PackingRecord) :
    (data.foldl groupStep groupInit).1 =
      data.foldl (fun m row => gsFold1 row m) groupInit.1 := by
  rw [groupFold_split data groupInit]

theorem groupFold_snd (data : List PackingRecord) :
    (data.foldl groupStep groupInit).2 =
      data.foldl (fun m row => gsFold2 row m) groupInit.2 := by
  rw [groupFold_split data groupInit]

theorem map_sum_congr {α : Type} {l : List α} {f h : α → ℚ} (he : ∀ c ∈ l, f c = h c) :
    (l.map f).sum = (l.map h).sum := by
  induction l with
  | nil => rfl
  | cons c cs ih =>
    simp only [List.map_cons, List.sum_cons]
    rw [he c (List.mem_cons_self c cs), ih (fun x hx => he x (List.mem_cons_of_mem c hx))]

/-- The raw group total of the claim: sum over the group's keys and all
records of the record's count for that key. -/
def groupTotal (data : List PackingRecord) (cols : List String) : ℚ :=
  (data.map (fun row => (cols.map (fun c => row.pkg c)).sum)).sum

/-- The claim's capacity total: sum over the group's keys and all records of
count / ratio, with the catalog ratio defaulting to 1 when unspecified. -/
def capTotal (data : List PackingRecord) (cols : List String) : ℚ :=
  (data.map (fun row =>
    (cols.map (fun c => row.pkg c / (alook PACKAGE_RATIOS c).getD 1)).sum)).sum

/-- Claim C1 — For every record list and every catalog group, aggregateData's
ratioStats for that group satisfies: used equals the sum over the group's
keys and all records of the record's count for that key (the raw group total,
which is also the groupStats value), and maxCapacity equals the sum over the
group's keys and all records of count/ratio[key] using the catalog ratio
(default 1 when unspecified). -/
theorem claim_C1 (data : List PackingRecord) (g : String) (cols : List String)
    (hg : alook PACKAGE_GROUPS g = some cols) :
    alook (aggregateData data).groupStats g = some (groupTotal data cols) ∧
    alook (aggregateData data).ratioStats g =
      some ⟨groupTotal data cols, capTotal data cols⟩ := by
  have hnd : (PACKAGE_GROUPS.map Prod.fst).Nodup := by decide
  constructor
  · have hinit : alook groupInit.1 g = some 0 :=
      alook_map_const (0 : ℚ) PACKAGE_GROUPS g hg
    have h := alook_data_fold (fun row c => row.pkg c) hnd hg data groupInit.1 0 hinit
    show alook (data.foldl groupStep groupInit).1 g = some (groupTotal data cols)
    rw [groupFold_fst]
    rw [show data.foldl (fun m row => gsFold1 row m) groupInit.1 =
      data.foldl (fun m row => PACKAGE_GROUPS.foldl (fun m gc => gc.2.foldl
        (fun m c => bumpAdd m gc.1 (row.pkg c)) m) m) groupInit.1 from rfl]
    rw [h]
    simp [groupTotal]
  · have hinit : alook groupInit.2 g = some (⟨0, 0⟩ : RatioEntry) :=
      alook_map_const (⟨0, 0⟩ : RatioEntry) PACKAGE_GROUPS g hg
    have h := alook_data_fold (fun row c => (⟨row.pkg c, capTerm row c⟩ : RatioEntry))
      hnd hg data groupInit.2 ⟨0, 0⟩ hinit
    show alook (data.foldl groupStep groupInit).2 g =
      some ⟨groupTotal data cols, capTotal data cols⟩
    rw [groupFold_snd]
    rw [show data.foldl (fun m row => gsFold2 row m) groupInit.2 =
      data.foldl (fun m row => PACKAGE_GROUPS.foldl (fun m gc => gc.2.foldl
        (fun m c => bumpAdd m gc.1 (⟨row.pkg c, capTerm row c⟩ : RatioEntry)) m) m)
        groupInit.2 from rfl]
    rw [h]
    congr 1
    rw [show (⟨0, 0⟩ : RatioEntry) = 0 from rfl, zero_add, ratioEntry_sum]
    simp only [RatioEntry.mk.injEq]
    constructor
    · rw [List.map_map]
      unfold groupTotal
      refine map_sum_congr (fun row _ => ?_)
      simp only [Function.comp_apply]
      rw [ratioEntry_sum, List.map_map]
      rfl
    · rw [List.map_map]
      unfold capTotal
      refine map_sum_congr (fun row _ => ?_)
      simp only [Function.comp_apply]
      rw [ratioEntry_sum]
      simp only [List.map_map]
      show (cols.map (fun c => capTerm row c)).sum = _
      exact map_sum_congr (fun c hc => capTerm_eq (groups_cols_sub hg c hc) row)

/-- A witness record for C1/C10 with RETURNABLE QTY = 4 (the spec's own
example). -/
def wrecR : PackingRecord :=
  { pkg := fun c => if c = "RETURNABLE QTY" then 4 else 0 }

/-- Witness for C1: two records each with RETURNABLE QTY = 4 and catalog
ratio 2 yield groupStats["Returnable Package"] = 8 (= used) and
ratioStats["Returnable Package"].maxCapacity = 4. -/
theorem claim_C1_witness :
    alook (aggregateData [wrecR, wrecR]).groupStats "Returnable Package" = some 8 ∧
    alook (aggregateData [wrecR, wrecR]).ratioStats "Returnable Package" =
      some ⟨8, 4⟩ := by
  have h := claim_C1 [wrecR, wrecR] "Returnable Package" ["RETURNABLE QTY"] (by decide)
  constructor
  · rw [h.1]
    norm_num [groupTotal, wrecR]
  · rw [h.2]
    have hr : (alook PACKAGE_RATIOS "RETURNABLE QTY").getD 1 = 2 := by decide
    norm_num [groupTotal, capTotal, wrecR, hr]

theorem map_fst_cols_fold {α : Type} [Add α] (k : String) (f : String → α) :
    ∀ (cols : List String) (m : List (String × α)), k ∈ m.map Prod.fst →
      ((cols.foldl (fun m c => bumpAdd m k (f c)) m).map Prod.fst) = m.map Prod.fst := by
  intro cols
  induction cols with
  | nil => intro m _; rfl
  | cons c cs ih =>
    intro m hk
    simp only [List.foldl_cons]
    rcases ha : alook m k with _ | w
    · exact absurd hk (alook_eq_none_iff.mp ha)
    · have hk' : k ∈ (bumpAdd m k (f c)).map Prod.fst := mem_keys_bumpAdd_self m k (f c)
      rw [ih _ hk', map_fst_bumpAdd_of_some ha]

theorem map_fst_gs_fold {α : Type} [Add α] (f : String → α) :
    ∀ (gs : List (String × List String)) (m : List (String × α)),
      (∀ gc ∈ gs, gc.1 ∈ m.map Prod.fst) →
      ((gs.foldl (fun m gc => gc.2.foldl (fun m c => bumpAdd m gc.1 (f c)) m) m).map
        Prod.fst) = m.map Prod.fst := by
  intro gs
  induction gs with
  | nil => intro m _; rfl
  | cons gc rest ih =>
    intro m hmem
    simp only [List.foldl_cons]
    have h1 : ((gc.2.foldl (fun m c => bumpAdd m gc.1 (f c)) m).map Prod.fst) =
        m.map Prod.fst :=
      map_fst_cols_fold gc.1 f gc.2 m (hmem gc (List.mem_cons_self _ _))
    have h2 : ∀ gc' ∈ rest,
        gc'.1 ∈ ((gc.2.foldl (fun m c => bumpAdd m gc.1 (f c)) m).map Prod.fst) := by
      intro gc' hgc'
      rw [h1]
      exact hmem gc' (List.mem_cons_of_mem _ hgc')
    rw [ih _ h2, h1]

theorem map_fst_data_fold {α : Type} [Add α] (f : PackingRecord → String → α) :
    ∀ (data : List PackingRecord) (m : List (String × α)),
      (∀ gc ∈ PACKAGE_GROUPS, gc.1 ∈ m.map Prod.fst) →
      ((data.foldl (fun m row => PACKAGE_GROUPS.foldl (fun m gc => gc.2.foldl
        (fun m c => bumpAdd m gc.1 (f row c)) m) m) m).map Prod.fst) =
          m.map Prod.fst := by
  intro data
  induction data with
  | nil => intro m _; rfl
  | cons row rest ih =>
    intro m hmem
    simp only [List.foldl_cons]
    have h1 := map_fst_gs_fold (f row) PACKAGE_GROUPS m hmem
    have h2 : ∀ gc ∈ PACKAGE_GROUPS, gc.1 ∈
        ((PACKAGE_GROUPS.foldl (fun m gc => gc.2.foldl
          (fun m c => bumpAdd m gc.1 (f row c)) m) m).map Prod.fst) := by
      intro gc hgc
      rw [h1]
      exact hmem gc hgc
    rw [ih _ h2, h1]

theorem map_fst_map_const {α β : Type} (z : α) :
    ∀ (l : List (String × β)),
      ((l.map (fun kv => (kv.1, z))).map Prod.fst) = l.map Prod.fst := by
  intro l
  induction l with
  | nil => rfl
  | cons kv rest ih => simp [ih]

theorem capTerm_zero {row : PackingRecord} {c : String} (h : row.pkg c = 0) :
    capTerm row c = 0 := by
  simp only [capTerm]
  split <;> simp [h]

/-- Claim C10 — For every input record list, including the empty list,
aggregateData's groupStats and ratioStats each contain an entry for every one
of the four catalog groups in catalog order; groups with zero usage are kept
with value 0 (and used = 0, maxCapacity = 0) rather than dropped, unlike the
per-package series which drops zero-total keys (every packageData entry has a
strictly positive value). -/
theorem claim_C10 (data : List PackingRecord) :
    ((aggregateData data).groupStats.map Prod.fst = PACKAGE_GROUPS.map Prod.fst) ∧
    ((aggregateData data).ratioStats.map Prod.fst = PACKAGE_GROUPS.map Prod.fst) ∧
    (∀ g cols, alook PACKAGE_GROUPS g = some cols →
      (∀ r ∈ data, ∀ c ∈ cols, r.pkg c = 0) →
      alook (aggregateData data).groupStats g = some 0 ∧
      alook (aggregateData data).ratioStats g = some ⟨0, 0⟩) ∧
    (∀ p ∈ (aggregateData data).packageData, 0 < p.value) := by
  have hinitk1 : (groupInit.1.map Prod.fst) = PACKAGE_GROUPS.map Prod.fst :=
    map_fst_map_const 0 PACKAGE_GROUPS
  have hinitk2 : (groupInit.2.map Prod.fst) = PACKAGE_GROUPS.map Prod.fst :=
    map_fst_map_const (⟨0, 0⟩ : RatioEntry) PACKAGE_GROUPS
  have hmem1 : ∀ gc ∈ PACKAGE_GROUPS, gc.1 ∈ groupInit.1.map Prod.fst := by
    intro gc hgc
    rw [hinitk1]
    exact List.mem_map.mpr ⟨gc, hgc, rfl⟩
  have hmem2 : ∀ gc ∈ PACKAGE_GROUPS, gc.1 ∈ groupInit.2.map Prod.fst := by
    intro gc hgc
    rw [hinitk2]
    exact List.mem_map.mpr ⟨gc, hgc, rfl⟩
  refine ⟨?_, ?_, ?_, ?_⟩
  · show ((data.foldl groupStep groupInit).1.map Prod.fst) = _
    rw [groupFold_fst]
    rw [show data.foldl (fun m row => gsFold1 row m) groupInit.1 =
      data.foldl (fun m row => PACKAGE_GROUPS.foldl (fun m gc => gc.2.foldl
        (fun m c => bumpAdd m gc.1 (row.pkg c)) m) m) groupInit.1 from rfl]
    rw [map_fst_data_fold (fun row c => row.pkg c) data groupInit.1 hmem1, hinitk1]
  · show ((data.foldl groupStep groupInit).2.map Prod.fst) = _
    rw [groupFold_snd]
    rw [show data.foldl (fun m row => gsFold2 row m) groupInit.2 =
      data.foldl (fun m row => PACKAGE_GROUPS.foldl (fun m gc => gc.2.foldl
        (fun m c => bumpAdd m gc.1 (⟨row.pkg c, capTerm row c⟩ : RatioEntry)) m) m)
        groupInit.2 from rfl]
    rw [map_fst_data_fold (fun row c => (⟨row.pkg c, capTerm row c⟩ : RatioEntry))
      data groupInit.2 hmem2, hinitk2]
  · intro g cols hg hzero
    have hnd : (PACKAGE_GROUPS.map Prod.fst).Nodup := by decide
    constructor
    · have hinit : alook groupInit.1 g = some 0 :=
        alook_map_const (0 : ℚ) PACKAGE_GROUPS g hg
      have h := alook_data_fold (fun row c => row.pkg c) hnd hg data groupInit.1 0 hinit
      show alook (data.foldl groupStep groupInit).1 g = some 0
      rw [groupFold_fst]
      rw [show data.foldl (fun m row => gsFold1 row m) groupInit.1 =
        data.foldl (fun m row => PACKAGE_GROUPS.foldl (fun m gc => gc.2.foldl
          (fun m c => bumpAdd m gc.1 (row.pkg c)) m) m) groupInit.1 from rfl]
      rw [h]
      have hS : (data.map (fun row => (cols.map (fun c => row.pkg c)).sum)).sum = 0 := by
        apply List.sum_eq_zero
        intro x hx
        obtain ⟨row, hrow, hxe⟩ := List.mem_map.mp hx
        subst hxe
        apply List.sum_eq_zero
        intro y hy
        obtain ⟨c, hc, hye⟩ := List.mem_map.mp hy
        subst hye
        exact hzero row hrow c hc
      rw [hS]
      simp
    · have hinit : alook groupInit.2 g = some (⟨0, 0⟩ : RatioEntry) :=
        alook_map_const (⟨0, 0⟩ : RatioEntry) PACKAGE_GROUPS g hg
      have h := alook_data_fold (fun row c => (⟨row.pkg c, capTerm row c⟩ : RatioEntry))
        hnd hg data groupInit.2 ⟨0, 0⟩ hinit
      show alook (data.foldl groupStep groupInit).2 g = some ⟨0, 0⟩
      rw [groupFold_snd]
      rw [show data.foldl (fun m row => gsFold2 row m) groupInit.2 =
        data.foldl (fun m row => PACKAGE_GROUPS.foldl (fun m gc => gc.2.foldl
          (fun m c => bumpAdd m gc.1 (⟨row.pkg c, capTerm row c⟩ : RatioEntry)) m) m)
          groupInit.2 from rfl]
      rw [h]
      have hS : (data.map (fun row =>
          (cols.map (fun c => (⟨row.pkg c, capTerm row c⟩ : RatioEntry))).sum)).sum = 0 := by
        apply List.sum_eq_zero
        intro x hx
        obtain ⟨row, hrow, hxe⟩ := List.mem_map.mp hx
        subst hxe
        apply List.sum_eq_zero
        intro y hy
        obtain ⟨c, hc, hye⟩ := List.mem_map.mp hy
        subst hye
        rw [hzero row hrow c hc, capTerm_zero (hzero row hrow c hc)]
        rfl
      rw [hS]
      simp [RatioEntry.zero_def, RatioEntry.add_def]
  · intro p hp
    have hp' : p ∈ sortByDesc (fun q => q.value)
        (((jsEntries (data.foldl chartStep chartInit).pkgUse).map
          (fun e => ChartPoint.mk (jsReplaceFirst e.1 " QTY" "") e.2)).filter
          (fun q => decide (0 < q.value))) := hp
    have hp2 := (mem_sortByDesc (fun q => q.value) _ p).mp hp'
    exact of_decide_eq_true (List.mem_filter.mp hp2).2

/-- Witness for C10: with records that only use RETURNABLE, the unused
"Warp Package" group is still present with value 0 and entry (0, 0). -/
theorem claim_C10_witness :
    alook (aggregateData [wrecR, wrecR]).groupStats "Warp Package" = some 0 ∧
    alook (aggregateData [wrecR, wrecR]).ratioStats "Warp Package" = some ⟨0, 0⟩ :=
  (claim_C10 [wrecR, wrecR]).2.2.1 "Warp Package" ["WARP QTY", "UNIT QTY"] (by decide)
    (by
      intro r hr c hc
      simp only [List.mem_cons, List.not_mem_nil, or_false] at hr hc
      rcases hr with rfl | rfl <;> rcases hc with rfl | rfl <;> decide)
